import Mathlib

/-!
# Verification of the MIGraphX core against its specification

This file gives a shallow embedding of the parts of the MIGraphX fork that the
specification talks about, and proves (or refutes) the specified properties.

Embedded source files:
* `src/include/migraphx/op/reshape.hpp` — the reshape operator: `compute_end_dim`,
  `can_strides_merge`, `reshape_dims`, `static_compute_shape`, `dyn_compute_shape`,
  `compute_shape`, `output_alias`.
* `src/targets/gpu/prepare_reduce.cpp` — the reduction-fusion pass: `get_reduce`,
  `split_reduce`, `find_multi_reduce::apply`, `parallel_reduce::compute_shape`,
  together with `group_by` from `migraphx/algorithm.hpp`.
* `src/targets/gpu/compile_ops.cpp` — the compilation scheduler `compile_ops::apply`
  and `compile_plan::replace`.
* `miopen_convolution::finalize` (convolution.hpp) — the FIND_2 finalize path.

The `shape` class, the `module` mutation primitives and the matcher engine are not
part of the given sources; where they are needed they are modelled from the
specification (each such definition says so in its doc comment).

Machine integers: the C++ uses `std::size_t` and `int64_t`.  Sizes, lengths and
strides are modelled as `Nat`; the requested reshape dimensions are `Int` (they may
be `-1` or `0`), and the `int64 → size_t` conversion is modelled explicitly as a
reduction mod `2^64`.
-/

deriving instance DecidableEq for Except

/-- The `int64_t → std::size_t` conversion (two's complement wraparound mod `2^64`). -/
def toSizeT (z : Int) : Nat := (z % ((2:Int)^64)).toNat

/-- Substring membership on character lists: `listStartsWith p l` holds when `p` is a
prefix of `l`.  Used to model `migraphx::contains(std::string, std::string)`. -/
def listStartsWith : List Char → List Char → Bool
  | [], _ => true
  | _ :: _, [] => false
  | a :: as, b :: bs => a = b && listStartsWith as bs

/-- `listSubSearch p l`: `p` occurs as a contiguous substring of `l`. -/
def listSubSearch (pat : List Char) : List Char → Bool
  | [] => listStartsWith pat []
  | l@(_ :: rest) => listStartsWith pat l || listSubSearch pat rest

/-- Models `migraphx::contains(s, pat)` for strings: substring search
(`s.find(pat) != npos`). -/
def strContains (pat s : String) : Bool := listSubSearch pat.toList s.toList

/-! ## Shapes (static)

Modelled from the spec (`shape.hpp` is not among the given sources):
"A shape additionally carries a stride for each dimension …  A shape is *standard*
iff strides match the canonical row-major layout for its lens."
-/

/-- Canonical row-major strides for a lens vector: `strides[i] = prod lens[i+1..]`. -/
def rowMajorStrides : List Nat → List Nat
  | [] => []
  | _ :: rest => rest.prod :: rowMajorStrides rest

/-- A static tensor shape: element-type tag, lens, strides.
Modelled from the spec ("an element-type tag, and an ordered sequence of
dimensions … a stride for each dimension"). -/
structure MShape where
  type : Nat
  lens : List Nat
  strides : List Nat
deriving DecidableEq, Repr

/-- The `shape{type, lens}` constructor, which computes standard (row-major)
strides.  Modelled from the spec ("standard layout: contiguous row-major memory
layout for given lens"). -/
def mkStandard (t : Nat) (lens : List Nat) : MShape :=
  ⟨t, lens, rowMajorStrides lens⟩

/-- `shape::standard()`.  Modelled from the spec: "A shape is *standard* iff
strides match the canonical row-major layout for its lens." -/
def MShape.standard (s : MShape) : Bool := s.strides = rowMajorStrides s.lens

/-- `shape::elements()`: total element count, the product of the lens.
Modelled from the spec ("total element count"). -/
def MShape.elements (s : MShape) : Nat := s.lens.prod

/-! ## reshape: the zero-copy walk (`reshape.hpp`) -/

/-- Accumulator loop of `reshape::compute_end_dim`: scan `l` multiplying into `x`
until the running product reaches `dim`; return the distance of the stopping
iterator from the start on an exact hit, `0` otherwise (the C++ returns `start`
both on failure and on a hit at the first element — the conflation is kept). -/
def computeEndDimGo : List Nat → Nat → Nat → Nat → Nat
  | [], _, _, _ => 0
  | a :: rest, dim, x, k =>
    let x' := x * a
    if dim ≤ x' then (if x' = dim then k else 0) else computeEndDimGo rest dim x' (k + 1)

/-- `reshape::compute_end_dim(start, last, dim)` as the distance `it - start`. -/
def computeEndDim (l : List Nat) (dim : Nat) : Nat := computeEndDimGo l dim 1 0

/-- Reverse accumulation step of `reshape::can_strides_merge`:
walking dims and (shifted) strides back-to-front, the running `cstride` is
multiplied by each dim and compared with the next stride out. -/
def canStridesMergeGo : List Nat → List Nat → Nat → Bool
  | d :: ds, s :: ss, c =>
    let c' := c * d
    (s = c') && canStridesMergeGo ds ss c'
  | _, _, _ => true

/-- `reshape::can_strides_merge(dim_start, dim_last, stride_start, stride_last)`
on equal-length dim/stride ranges: the merged dims must be stride-contiguous,
i.e. `strides[j] = strides[n] * prod dims[j+1..n]` for every `j < n`. -/
def canStridesMerge (dims strides : List Nat) : Bool :=
  match strides.getLast? with
  | none => true
  | some cs => canStridesMergeGo dims.reverse.dropLast strides.reverse.tail cs

/-- Stride distribution for the unsqueeze (split) branch of `reshape_dims`:
`stride /= dim; push(stride)` over the split target dims, starting from the
original dim's stride times its size. -/
def pushSplit : List Nat → Nat → List Nat
  | [], _ => []
  | d :: rest, s => (s / d) :: pushSplit rest (s / d)

/-- The main lockstep walk of `reshape::reshape_dims` over input dims/strides and
requested dims, carried out from input index `i` and target index `r`, with the
produced strides accumulated in `acc`.  Note that, exactly as in the source, the
unsqueeze branch starts its scan of the target dims at `rdims.begin() + i`
(the *input* index), not at the target index `r`.  The loop advances `i` by at
least one per iteration, so the structural fuel `idims.length + 1` passed by
`reshapeDims` always outlasts the walk (the `none` at zero fuel is unreachable
from that entry point). -/
def reshapeWalk (idims istrides rdims : List Nat) :
    Nat → Nat → Nat → List Nat → Option (List Nat)
  | 0, _, _, _ => none
  | fuel + 1, i, r, acc =>
    if i < idims.length ∧ r < rdims.length then
      let idim := idims.getD i 0
      let rdim := rdims.getD r 0
      if rdim = idim then
        reshapeWalk idims istrides rdims fuel (i + 1) (r + 1) (acc ++ [istrides.getD i 0])
      else if idim < rdim then
        -- squeeze: merge consecutive input dims into one target dim
        let n := computeEndDim (idims.drop i) rdim
        if n = 0 then none
        else if canStridesMerge ((idims.drop i).take (n + 1)) ((istrides.drop i).take (n + 1))
        then reshapeWalk idims istrides rdims fuel (i + n + 1) (r + 1)
              (acc ++ [istrides.getD (i + n) 0])
        else none
      else
        -- unsqueeze: split one input dim into consecutive target dims
        let n := computeEndDim (rdims.drop i) idim
        if n = 0 then none
        else
          reshapeWalk idims istrides rdims fuel (i + 1) (r + n + 1)
            (acc ++ pushSplit ((rdims.drop i).take (n + 1)) (istrides.getD i 0 * idim))
    else some acc

/-- The trailing-1s fixup after the walk: when fewer strides than target dims were
produced and at least one stride exists, trailing target dims equal to `1` are
appended carrying the last stride; any other trailing dim fails. -/
def trailingOnes (rdims rstrides : List Nat) : Option (List Nat) :=
  if rstrides.length < rdims.length ∧ rstrides ≠ [] then
    let t := rdims.drop rstrides.length
    if t.all (fun d => d = 1) then
      some (rstrides ++ List.replicate t.length (rstrides.getLastD 0))
    else none
  else some rstrides

/-- `reshape::reshape_dims(input, rdims)`: reinterpret `input` with lens `rdims`
without changing memory layout, or `none` when that is impossible.  A standard
input short-circuits to a standard result. -/
def reshapeDims (input : MShape) (rdims : List Nat) : Option MShape :=
  if input.standard then some (mkStandard input.type rdims)
  else
    match reshapeWalk input.lens input.strides rdims (input.lens.length + 1) 0 0 [] with
    | none => none
    | some rstrides =>
      match trailingOnes rdims rstrides with
      | none => none
      | some rstrides' =>
        if rdims.length = rstrides'.length then some ⟨input.type, rdims, rstrides'⟩
        else none

/-! ## reshape: `static_compute_shape`, `dyn_compute_shape`, `compute_shape` -/

/-- First resolution loop of `static_compute_shape`: `dims[i] == 0` copies the
input dim, `dims[i] == -1` is set to `1` for now (the comment in the source
explains the `size_t` pitfall), anything else is the `int64 → size_t` value. -/
def resolveDims0 : List Int → List Nat → List Nat
  | [], _ => []
  | d :: ds, idims =>
    (if d = 0 then idims.headD 0 else if d = -1 then 1 else toSizeT d)
      :: resolveDims0 ds idims.tail

/-- Second resolution step of `static_compute_shape`: when a `-1` is present, the
missing dim is the input element count divided by the product of the other
resolved dims. -/
def resolveDims (dims : List Int) (input : MShape) : List Nat :=
  let rdims := resolveDims0 dims input.lens
  if dims.count (-1) > 0 then
    let missing := input.elements / rdims.prod
    (dims.zip rdims).map (fun p => if p.1 = -1 then missing else p.2)
  else rdims

/-- Error message of the element-count check in `static_compute_shape`. -/
def elementsMsg (got want : Nat) : String :=
  "Reshape: Wrong number of elements for reshape: reshape has " ++
    (toString got ++ (" elements whereas the input has " ++ toString want))

/-- `reshape::static_compute_shape` (single static input): resolve the target
lens, run `reshape_dims`, fail when the layout forbids a zero-copy reshape or
when the element counts differ. -/
def staticComputeShape (dims : List Int) (input : MShape) : Except String MShape :=
  let rdims := resolveDims dims input
  match reshapeDims input rdims with
  | none => .error "Reshape on axis that is not packed."
  | some s =>
    if s.elements ≠ input.elements then .error (elementsMsg s.elements input.elements)
    else .ok s

/-- A dynamic dimension: an inclusive `[min,max]` range (`shape::dynamic_dimension`;
the optional optimals play no role here).  Modelled from the spec: "a dimension is
either fixed … or dynamic (an inclusive `[min,max]` range, degenerate to fixed
when `min==max`)". -/
structure DynDim where
  min : Nat
  max : Nat
deriving DecidableEq, Repr

/-- `dynamic_dimension::is_fixed()`. -/
def DynDim.isFixed (d : DynDim) : Bool := d.min = d.max

/-- Error message thrown by `dyn_compute_shape` when the number of non-fixed
dynamic dimensions differs from one. -/
def oneNonFixedMsg : String := "Reshape: Only supports one non-fixed dynamic_dimension"

/-- The per-dimension loop of `dyn_compute_shape`, accumulating the fixed element
products of the requested dims and of the input dims (`size_t` arithmetic), and
failing when a non-fixed dimension's requested entry is neither `0` nor `-1`. -/
def dynLoop (dims : List Int) : List DynDim → Nat → Nat × Nat → Except String (Nat × Nat)
  | [], _, acc => .ok acc
  | dd :: rest, i, (a, b) =>
    if dd.isFixed then
      dynLoop dims rest (i + 1) ((a * toSizeT (dims.getD i 0)) % 2 ^ 64, (b * dd.min) % 2 ^ 64)
    else if dims.getD i 0 = 0 ∨ dims.getD i 0 = -1 then dynLoop dims rest (i + 1) (a, b)
    else .error
      "Reshape: Non-fixed dynamic_dimension doesn't match with 0 or -1 output dimension"

/-- Error message of the fixed-element-count check in `dyn_compute_shape`. -/
def fixedElementsMsg (inp out : Nat) : String :=
  "Reshape: Number of fixed elements must match. Input: " ++
    (toString inp ++ (" Output: " ++ toString out))

/-- `reshape::dyn_compute_shape`: exactly one non-fixed dynamic dimension is
required; fixed dims must multiply up to the same count on both sides; the output
copies the requested dims as degenerate ranges and keeps the non-fixed slot. -/
def dynComputeShape (dims : List Int) (t : Nat) (dds : List DynDim) :
    Except String (Nat × List DynDim) :=
  if dds.countP (fun dd => ¬ dd.isFixed) ≠ 1 then .error oneNonFixedMsg
  else
    match dynLoop dims dds 0 (1, 1) with
    | .error e => .error e
    | .ok (numDimsEle, numDdEle) =>
      if numDimsEle ≠ numDdEle then .error (fixedElementsMsg numDdEle numDimsEle)
      else
        .ok (t, (dims.zip dds).map (fun p =>
          if p.2.isFixed then ⟨toSizeT p.1, toSizeT p.1⟩ else p.2))

/-- Input to `reshape::compute_shape`: a static shape or a dynamic one. -/
inductive RInput where
  | st (s : MShape)
  | dyn (t : Nat) (dds : List DynDim)
deriving DecidableEq, Repr

/-- Output of `reshape::compute_shape`. -/
inductive ROutput where
  | st (s : MShape)
  | dyn (t : Nat) (dds : List DynDim)
deriving DecidableEq, Repr

/-- `reshape::compute_shape`: at most one `-1` in the requested dims, then
dispatch on whether the (single) input is dynamic. -/
def reshapeComputeShape (dims : List Int) (inp : RInput) : Except String ROutput :=
  if dims.count (-1) > 1 then
    .error "Reshape: Dimensions for reshape can only have one -1 dim"
  else
    match inp with
    | .dyn t dds => (dynComputeShape dims t dds).map (fun p => .dyn p.1 p.2)
    | .st s => (staticComputeShape dims s).map .st

/-- `reshape::output_alias`: the output always aliases input `0`
(`return 0;`, independent of the input shapes). -/
def reshapeOutputAlias (_shapes : List MShape) : Int := 0

/-! ## The instruction graph (Module)

Modelled from the spec (`module.cpp` / `instruction.cpp` are not among the given
sources): instructions live in an arena addressed by stable ids, with a separate
order list of live ids (spec §3 "GModule", design note "arena of instructions
addressed by stable handles/indices").  Consumers ("outputs") are the inverse of
the input relation, in module order.
-/

/-- A shape as used by the pass model: either an ordinary tensor shape (abstract
code) or a tuple of ordinary shapes (one slot per sub-shape), as produced by
`parallel_reduce::compute_shape`.  Reduce operators compute ordinary shapes. -/
inductive Sh where
  | ord (code : Nat)
  | tup (slots : List Nat)
deriving DecidableEq, Repr

/-- An operation value: a generic named operator with an abstract attribute,
`gpu::parallel_reduce` wrapping the fused operator, or `get_tuple_elem` with its
slot index. -/
inductive Oper where
  | base (name : String) (attr : Nat)
  | parallelReduce (op : Oper)
  | getTupleElem (index : Nat)
deriving DecidableEq, Repr

/-- `operation::name()`. -/
def Oper.name : Oper → String
  | .base n _ => n
  | .parallelReduce _ => "gpu::parallel_reduce"
  | .getTupleElem _ => "get_tuple_elem"

/-- One instruction: its operation, its ordered input ids, and its cached output
shape.  Modelled from the spec ("Instruction — one node in the graph …"). -/
structure Inst where
  op : Oper
  inputs : List Nat
  shp : Sh
deriving DecidableEq, Repr

instance : Inhabited Inst := ⟨⟨.base "" 0, [], .ord 0⟩⟩

/-- A module: an arena of instructions addressed by stable ids (list positions;
the arena only grows) and the ordered list of live instruction ids.
Modelled from the spec ("GModule — an ordered, mutable container …",
design note §9 "arena … addressed by stable handles/indices"). -/
structure GModule where
  arena : List Inst
  order : List Nat
deriving DecidableEq, Repr

/-- The instruction stored under an id. -/
def GModule.instAt (M : GModule) (i : Nat) : Inst := M.arena.getD i default

/-- `instruction::outputs()`: the consumers of `i`, i.e. the live instructions
that list `i` among their inputs, in module order.  Modelled from the spec
("an implicit set of *output* references (consumers) maintained as the inverse
of the input relation"). -/
def outputsOf (M : GModule) (i : Nat) : List Nat :=
  M.order.filter (fun j => i ∈ (M.instAt j).inputs)

/-! ## `prepare_reduce.cpp`: `get_reduce` and the `split_reduce` matcher -/

/-- `get_reduce(ins)`: skip `gpu::parallel_reduce` and `reduce_mean`; an
instruction whose name contains `"reduce"` is returned; a `pointwise` instruction
with one input and one output is looked through to its single consumer.  The
consumer recursion is bounded by explicit fuel (the module order length suffices
for acyclic modules). -/
def getReduce (M : GModule) : Nat → Nat → Option Nat
  | 0, _ => none
  | fuel + 1, i =>
    let nm := (M.instAt i).op.name
    if nm = "gpu::parallel_reduce" ∨ nm = "reduce_mean" then none
    else if strContains "reduce" nm then some i
    else if nm = "pointwise" ∧ (M.instAt i).inputs.length = 1 ∧ (outputsOf M i).length = 1 then
      getReduce M fuel ((outputsOf M i).headD 0)
    else none

/-- The `split_reduce` predicate matcher: at least two consumers, of which more
than one reaches a reduction through `get_reduce`. -/
def splitReduce (M : GModule) (fuel i : Nat) : Bool :=
  let outs := outputsOf M i
  if outs.length < 2 then false
  else 1 < (outs.filter (fun o => (getReduce M fuel o).isSome)).length

/-! ## `find_multi_reduce::apply` -/

/-- The reduction instructions reachable from the consumers of `ins`
(consumers with no consumers of their own are skipped), as collected at the top
of `find_multi_reduce::apply`. -/
def collectReduces (M : GModule) (fuel i : Nat) : List Nat :=
  (outputsOf M i).filterMap (fun o =>
    if (outputsOf M o).isEmpty then none else getReduce M fuel o)

/-- The grouping key: `(instruction name, output shape)`. -/
def instKey (M : GModule) (r : Nat) : String × Sh :=
  ((M.instAt r).op.name, (M.instAt r).shp)

/-- The contract of `std::partition` (the call made by `migraphx::group_by`,
algorithm block line 327): the elements satisfying the predicate are placed
first and the others after, each side being some permutation of those elements.
The relative order within each side is implementation-defined — only
`std::stable_partition` promises stability.  A partitioning routine conforms
when both returned sides are such permutations. -/
def ConformsToPartition (part : (Nat → Bool) → List Nat → List Nat × List Nat) : Prop :=
  ∀ (p : Nat → Bool) (l : List Nat),
    (part p l).1.Perm (l.filter p) ∧ (part p l).2.Perm (l.filter (fun x => ! p x))

/-- The order-keeping conforming partitioning routine (the behaviour
`std::stable_partition` would guarantee) — one admissible implementation of the
`std::partition` contract, used to instantiate the pass at a concrete
conforming routine. -/
def stablePart (p : Nat → Bool) (l : List Nat) : List Nat × List Nat :=
  (l.filter p, l.filter (fun x => ! p x))

/-- The classic bidirectional two-pointer `std::partition` scheme of mainstream
standard-library implementations, rendered on lists with explicit fuel: keep a
satisfying front element and continue behind it; on a failing front element,
scan from the back over failing elements, swap the failing front element with
the last satisfying one (the swapped-out front element is final at the back),
and continue on the range strictly between the two.  It conforms to the
contract (`bidirPart_conforms`) but is not stable. -/
def bidirPartGo (p : Nat → Bool) : Nat → List Nat → List Nat × List Nat
  | 0, _ => ([], [])
  | fuel + 1, l =>
    match l with
    | [] => ([], [])
    | x :: xs =>
      if p x then
        (x :: (bidirPartGo p fuel xs).1, (bidirPartGo p fuel xs).2)
      else
        match xs.reverse.dropWhile (fun y => ! p y) with
        | [] => ([], x :: xs)
        | y :: midRev =>
          (y :: (bidirPartGo p fuel midRev.reverse).1,
           (bidirPartGo p fuel midRev.reverse).2 ++
             x :: (xs.reverse.takeWhile (fun y => ! p y)).reverse)

/-- The two-pointer partitioning routine at its adequate fuel (each recursive
call is on a strictly shorter list, so the list length bounds the rounds). -/
def bidirPart (p : Nat → Bool) (l : List Nat) : List Nat × List Nat :=
  bidirPartGo p l.length l

/-- `migraphx::group_by` over a list: as long as elements remain, call the
partitioning routine with the predicate "key equal to the first remaining
element's key", emit the partitioned-out side as the next group, and continue
on the remainder.  The routine (`std::partition` in the source) is a parameter
constrained only by its contract (`ConformsToPartition`): within a group the
member order is whatever the partition produced, not necessarily the encounter
order. -/
def groupByKeyGo (part : (Nat → Bool) → List Nat → List Nat × List Nat)
    (key : Nat → String × Sh) : Nat → List Nat → List (List Nat)
  | 0, _ => []
  | _, [] => []
  | fuel + 1, a :: rest =>
    (part (fun x => key x = key a) (a :: rest)).1 ::
      groupByKeyGo part key fuel (part (fun x => key x = key a) (a :: rest)).2

/-- `migraphx::group_by` entry point; for a conforming partitioning routine
each round removes at least one element (the pivot satisfies its own
predicate), so the list's length is enough fuel. -/
def groupByKey (part : (Nat → Bool) → List Nat → List Nat × List Nat)
    (key : Nat → String × Sh) (l : List Nat) : List (List Nat) :=
  groupByKeyGo part key l.length l

/-- The id right after `i` in the module order (the captured iterator
`std::next(ins)`), or `none` when `i` is last (the end iterator). -/
def idAfter (M : GModule) (i : Nat) : Option Nat :=
  match M.order.dropWhile (fun x => x ≠ i) with
  | _ :: next :: _ => some next
  | _ => none

/-- Insert id `x` immediately before the anchor id (or at the end for the end
iterator / a vanished anchor). -/
def insertBeforeAnchor (l : List Nat) (anchor : Option Nat) (x : Nat) : List Nat :=
  match anchor with
  | none => l ++ [x]
  | some a =>
    if a ∈ l then l.takeWhile (fun y => y ≠ a) ++ x :: l.dropWhile (fun y => y ≠ a)
    else l ++ [x]

/-- `module::move_instruction(x, anchor)`: splice `x` out of the order and back
in before the anchor.  Splicing an element before itself is a no-op.
Modelled from the spec ("*move* — relocate an existing instruction to a new
position"). -/
def moveIns (M : GModule) (x : Nat) (anchor : Option Nat) : GModule :=
  if anchor = some x then M
  else { M with order := insertBeforeAnchor (M.order.erase x) anchor x }

/-- `op.compute_shape({input})` for the wrapped operator of `parallel_reduce`:
the per-slot shape an operator computes on a single input shape, abstracted by
the interpretation `sem` of the named base operators. -/
def semApply (sem : String → Nat → Sh → Nat) : Oper → Sh → Nat
  | .base n a, s => sem n a s
  | .parallelReduce _, _ => 0
  | .getTupleElem k, s => match s with | .tup l => l.getD k 0 | .ord c => c

/-- The shape `get_tuple_elem{index}` computes from its (tuple-shaped) input. -/
def tupleSlotShape (s : Sh) (k : Nat) : Sh :=
  match s with
  | .tup l => .ord (l.getD k 0)
  | .ord c => .ord c

/-- One step of the tuple-extraction replacement loop of
`find_multi_reduce::apply`: `m.replace_instruction(reduce, get_tuple_elem{k}, preduce)`
replaces the group member's definition in place (identity preserved, consumers
untouched) and recomputes its shape from the fused instruction's tuple shape.
Modelled from the spec ("replace every original reduction with a
tuple-extraction of its slot index, rewriting its consumers"). -/
def replaceStep (pid : Nat) (m : GModule) (kr : Nat × Nat) : GModule :=
  { m with arena :=
      m.arena.set kr.2 ⟨.getTupleElem kr.1, [pid], tupleSlotShape (m.instAt pid).shp kr.1⟩ }

/-- The `each` callback of `find_multi_reduce::apply` for one group: nothing for
groups smaller than two; otherwise move each group member's input next to the
common ancestor `i`, insert one `gpu::parallel_reduce` instruction over those
inputs (its tuple shape having one slot per member, computed by the first
member's operator on that member's input), and replace each member in place by
`get_tuple_elem` of its slot index reading the fused instruction. -/
def applyGroup (sem : String → Nat → Sh → Nat) (i : Nat) (M : GModule) (g : List Nat) :
    GModule :=
  if g.length < 2 then M
  else
    let inputs := g.map (fun r => (M.instAt r).inputs.headD 0)
    let op := (M.instAt (g.headD 0)).op
    let anchor := idAfter M i
    let M1 := inputs.foldl (fun m inp => if inp = i then m else moveIns m inp anchor) M
    let pid := M1.arena.length
    let slots := inputs.map (fun j => semApply sem op (M1.instAt j).shp)
    let M2 : GModule :=
      { arena := M1.arena ++ [⟨.parallelReduce op, inputs, .tup slots⟩],
        order := insertBeforeAnchor M1.order anchor pid }
    g.enum.foldl (replaceStep pid) M2

/-- `find_multi_reduce::apply`: group the reachable reductions by
`(name, shape)` with `group_by` over the partitioning routine `part` and
rewrite each produced group. -/
def applyMultiReduce (part : (Nat → Bool) → List Nat → List Nat × List Nat)
    (sem : String → Nat → Sh → Nat) (fuel : Nat) (M : GModule) (i : Nat) :
    GModule :=
  let reduces := collectReduces M fuel i
  (groupByKey part (instKey M) reduces).foldl (applyGroup sem i) M

/-! ## The matcher scan and the full `prepare_reduce` pass

Modelled from the spec (`matcher.hpp` is not among the given sources): "A rewrite
pass scans the Module once, in a fixed traversal order …, testing each
instruction against a matcher.  On a match, the pass's `apply` callback runs …
Matches found within one scan of a pass are not re-validated …".  The scan is
forward; after the body runs on the current instruction, it advances to that
instruction's successor in the (possibly mutated) order, exactly as iterating an
intrusive list. -/

/-- One forward matcher scan of `find_multi_reduce`, from the instruction
`cur`, with step fuel. -/
def findMatchesGo (part : (Nat → Bool) → List Nat → List Nat × List Nat)
    (sem : String → Nat → Sh → Nat) :
    Nat → GModule → Option Nat → GModule
  | 0, M, _ => M
  | _ + 1, M, none => M
  | steps + 1, M, some cur =>
    let M' := if splitReduce M M.order.length cur
              then applyMultiReduce part sem M.order.length M cur else M
    findMatchesGo part sem steps M' (idAfter M' cur)

/-- `prepare_reduce::apply(m)`: run the `find_multi_reduce` scan over the whole
module.  The step fuel covers every live instruction plus every instruction the
scan can insert (one per matched group, bounded by the arena growth). -/
def prepareReducePass (part : (Nat → Bool) → List Nat → List Nat × List Nat)
    (sem : String → Nat → Sh → Nat) (M : GModule) : GModule :=
  findMatchesGo part sem (2 * (M.order.length + M.arena.length) + 2) M M.order.head?

/-! ## `compile_ops.cpp`: the compilation scheduler -/

/-- The external tuning/compile environment of one `compile_ops` pass.
Modelled from the spec (`get_tuning_config`, `compile` and `compiler_replace`
live behind the target-compiler interface, not among the given sources):
`tuning i` is the optional tuning config (its list of candidate solutions) for
the placeholder instruction `i`; `compiled i s` is the instruction that
compiling solution `s` for `i` substitutes for it; `compiledDefault i` the
result of the single default-configuration compile used when no config exists. -/
structure CompileEnv where
  tuning : Nat → Option (List Nat)
  compiled : Nat → Nat → Inst
  compiledDefault : Nat → Inst

/-- The per-plan compiled results (`compile_plan::results` after the parallel
compile phase): one per solution when a tuning config exists, else the single
default compile. -/
def planResults (env : CompileEnv) (i : Nat) : List Inst :=
  match env.tuning i with
  | some sols => sols.map (env.compiled i)
  | none => [env.compiledDefault i]

/-- The placeholder instructions discovered by the module scan of
`compile_ops::apply`, in scan order. -/
def precompileIds (M : GModule) : List Nat :=
  M.order.filter (fun j => (M.instAt j).op.name = "gpu::precompile_op")

/-- `compile_plan::replace`: with exactly one compiled result, substitute it for
the placeholder instruction; with zero or several results nothing happens
(`TODO: Benchmark`). -/
def planReplace (env : CompileEnv) (m : GModule) (i : Nat) : GModule :=
  let results := planResults env i
  if results.length = 1 then { m with arena := m.arena.set i (results.headD default) }
  else m

/-- `compile_ops::apply`: collect the placeholders, tune and compile (the
concurrent phases touch no module state), then apply the replacements
sequentially in discovery order. -/
def compileOpsApply (env : CompileEnv) (M : GModule) : GModule :=
  (precompileIds M).foldl (planReplace env) M

/-! ## `miopen_convolution::finalize` (FIND_2 path) -/

/-- MIOpen status results relevant to `finalize`. -/
inductive MiopenStatus where
  | success
  | versionMismatch
  | otherFailure
deriving DecidableEq, Repr

/-- The state `finalize` sees: whether a solution is already loaded, the status
`miopenLoadSolution` returns, the device data recorded in the compiled model
(`gfx_arch`, `cu_count` from the context value) and the current device's. -/
structure FinalizeCtx where
  solutionLoaded : Bool
  loadStatus : MiopenStatus
  savedArch : String
  savedCuCount : Nat
  currentArch : String
  currentCuCount : Nat
deriving DecidableEq, Repr

/-- What a `finalize` run does: either it throws (`.error` with the message) or
it completes, with the list of warnings written to the log. -/
abbrev ConvFinalizeResult := Except String (List String)

/-- The warning logged for a MIOpen version mismatch. -/
def versionWarning : String :=
  "MIOpen convolution was compiled with different MIOpen version"

/-- The error message thrown on a device-compatibility mismatch. -/
def archMismatchMsg (c : FinalizeCtx) : String :=
  "MIGraphX model was compiled for gfx_arch: " ++
    (c.savedArch ++ (" with number of CUs=" ++ (toString c.savedCuCount ++
      (", but current device has gfx_arch: " ++ (c.currentArch ++
        (" with number of CUs=" ++ (toString c.currentCuCount ++
          (", performance may suffer. Consider re-compiling the model with " ++
            "environment variable MIOPEN_FIND_ENFORCE=3 to re-tune the model."))))))))

/-- `miopen_convolution::finalize` (FIND_2 branch): when no solution is loaded
yet, load it (throwing on a failed load; a version mismatch would merely log a
warning), then compare the compiled model's `gfx_arch`/`cu_count` against the
current device and THROW on any difference — the mismatch is an error, not a
logged warning. -/
def miopenConvFinalize (c : FinalizeCtx) : ConvFinalizeResult :=
  if c.solutionLoaded then .ok []
  else
    if c.loadStatus ≠ .success then .error "loading convolution solution failed"
    else
      let warns := if c.loadStatus = .versionMismatch then [versionWarning] else []
      if c.savedCuCount ≠ c.currentCuCount ∨ c.savedArch ≠ c.currentArch then
        .error (archMismatchMsg c)
      else .ok warns

/-! ## Spec-side comparison definitions -/

/-- Modelled from the spec (for comparison with `reshapeWalk`): the walk as §4.1
words it — "Target dim smaller than current input dim (an *unsqueeze* …):
accumulate consecutive target dims", i.e. the unsqueeze scan starts at the
current *target* position `r`.  Identical to `reshapeWalk` otherwise. -/
def reshapeWalkSpec (idims istrides rdims : List Nat) :
    Nat → Nat → Nat → List Nat → Option (List Nat)
  | 0, _, _, _ => none
  | fuel + 1, i, r, acc =>
    if i < idims.length ∧ r < rdims.length then
      let idim := idims.getD i 0
      let rdim := rdims.getD r 0
      if rdim = idim then
        reshapeWalkSpec idims istrides rdims fuel (i + 1) (r + 1) (acc ++ [istrides.getD i 0])
      else if idim < rdim then
        let n := computeEndDim (idims.drop i) rdim
        if n = 0 then none
        else if canStridesMerge ((idims.drop i).take (n + 1)) ((istrides.drop i).take (n + 1))
        then reshapeWalkSpec idims istrides rdims fuel (i + n + 1) (r + 1)
              (acc ++ [istrides.getD (i + n) 0])
        else none
      else
        let n := computeEndDim (rdims.drop r) idim
        if n = 0 then none
        else
          reshapeWalkSpec idims istrides rdims fuel (i + 1) (r + n + 1)
            (acc ++ pushSplit ((rdims.drop r).take (n + 1)) (istrides.getD i 0 * idim))
    else some acc

/-- Modelled from the spec: `reshape_dims` with the unsqueeze scan anchored at
the target position, as described in §4.1; used to compare the source's
behaviour against the specified one. -/
def reshapeDimsSpec (input : MShape) (rdims : List Nat) : Option MShape :=
  if input.standard then some (mkStandard input.type rdims)
  else
    match reshapeWalkSpec input.lens input.strides rdims (input.lens.length + 1) 0 0 [] with
    | none => none
    | some rstrides =>
      match trailingOnes rdims rstrides with
      | none => none
      | some rstrides' =>
        if rdims.length = rstrides'.length then some ⟨input.type, rdims, rstrides'⟩
        else none

/-! ## Declarative reachability of a reduction (for the matcher claims) -/

/-- The terminal condition of `get_reduce`: a reduction instruction that counts —
its name contains `"reduce"` and it is neither `gpu::parallel_reduce` nor
`reduce_mean`. -/
def isCountedReduce (M : GModule) (i : Nat) : Prop :=
  ¬ ((M.instAt i).op.name = "gpu::parallel_reduce" ∨ (M.instAt i).op.name = "reduce_mean") ∧
    strContains "reduce" (M.instAt i).op.name = true

/-- A pointwise pass-through node as `get_reduce` looks through it: named
`pointwise` with exactly one input. -/
def isPointwiseStep (M : GModule) (i : Nat) : Prop :=
  (M.instAt i).op.name = "pointwise" ∧ (M.instAt i).inputs.length = 1

/-- `IsRedChain M i p`: from `i`, the single-consumer pointwise chain given by
`p` ends at a counted reduction.  `p = []` means `i` itself is the reduction;
otherwise `i` is a pointwise step whose unique consumer heads the rest of the
chain. -/
def IsRedChain (M : GModule) : Nat → List Nat → Prop
  | i, [] => isCountedReduce M i
  | i, j :: rest => isPointwiseStep M i ∧ outputsOf M i = [j] ∧ IsRedChain M j rest

/-- An instruction reaches a counted reduction through some (possibly empty)
single-consumer pointwise chain. -/
def ReachesReduce (M : GModule) (i : Nat) : Prop := ∃ p, IsRedChain M i p

/-! # Theorems -/

/-- Helper: a string obtained by appending to `a` can never equal a string `b`
that `a` is not a prefix of (used to tell error messages with dynamic suffixes
apart from fixed ones). -/
theorem strAppend_ne_of_other_start (a b : String) (h : ¬ a.data <+: b.data) (s : String) :
    a ++ s ≠ b := by
  intro he
  exact h ⟨s.data, by rw [← String.data_append, he]⟩

/-- **C10**: `reshape::output_alias` returns `0` for every input shape list —
reshape always declares that its output aliases its first input. -/
theorem reshape_outputAlias_always_zero (shapes : List MShape) :
    reshapeOutputAlias shapes = 0 := rfl

set_option maxRecDepth 4000 in
/-- **C9** (counterexample): a compute-unit-count mismatch between the compiled
model and the current device makes `miopen_convolution::finalize` throw
(`Except.error`), with no warnings logged and no continued execution — the
claim says the condition is only logged and execution continues. -/
theorem finalize_arch_mismatch_throws :
    miopenConvFinalize ⟨false, .success, "gfx906", 60, "gfx906", 64⟩ =
      .error (archMismatchMsg ⟨false, .success, "gfx906", 60, "gfx906", 64⟩) := by decide

/-- **C9** (amended): whenever `finalize` loads a previously compiled solution
and the recorded `gfx_arch`/CU count differ from the current device's, it raises
an error (whose text carries the performance caveat); only a MIOpen *version*
mismatch is treated as a logged warning. -/
theorem finalize_arch_mismatch_error (c : FinalizeCtx)
    (hload : c.solutionLoaded = false) (hst : c.loadStatus = .success)
    (hmm : c.savedCuCount ≠ c.currentCuCount ∨ c.savedArch ≠ c.currentArch) :
    miopenConvFinalize c = .error (archMismatchMsg c) := by
  unfold miopenConvFinalize
  rw [hload, hst]
  simp only [Bool.false_eq_true, if_false, ne_eq, not_true_eq_false, if_neg, reduceCtorEq,
    not_false_eq_true, if_true]
  rw [if_pos hmm]

/-- **C9** (witness for the amended theorem). -/
theorem finalize_arch_mismatch_error_witness :
    miopenConvFinalize ⟨false, .success, "gfx906", 60, "gfx908", 60⟩ =
      .error (archMismatchMsg ⟨false, .success, "gfx906", 60, "gfx908", 60⟩) :=
  finalize_arch_mismatch_error _ rfl rfl (by decide)

/-- **C2**: on the non-standard input `lens [4,6], strides [1,4]` with target
dims `[2,2,2,3]`, the source's unsqueeze scan starts at the *input* index
(`rdims.begin() + i`, here `i = 1`) instead of the current target position
(`r = 2`), so the prefix products `2, 4, 12` never hit the input dim `6` and
`reshape_dims` fails, while the walk described by the spec — scanning from the
target position, where the products are `2, 6` — succeeds with the geometric
strides `[12, 4]` for the split: the code diverges from the claim exactly in
the scan's start position. -/
theorem reshape_unsqueeze_scan_starts_at_input_index :
    reshapeDims ⟨0, [4, 6], [1, 4]⟩ [2, 2, 2, 3] = none ∧
    reshapeDimsSpec ⟨0, [4, 6], [1, 4]⟩ [2, 2, 2, 3] =
      some ⟨0, [2, 2, 2, 3], [2, 1, 12, 4]⟩ ∧
    computeEndDim ([2, 2, 2, 3].drop 1) 6 = 0 ∧
    computeEndDim ([2, 2, 2, 3].drop 2) 6 = 1 := by decide

/-- **C4** (counterexample): a dynamic input with *zero* non-fixed dimensions is
also rejected with the "only one non-fixed" error (`num_not_fixed != 1` in the
source), contradicting the claim that an input with at most one non-fixed
dimension is never rejected for its count. -/
theorem reshape_dyn_zero_nonfixed_rejected :
    reshapeComputeShape [2] (.dyn 0 [⟨2, 2⟩]) = .error oneNonFixedMsg ∧
    ([(⟨2, 2⟩ : DynDim)].countP (fun dd => ¬ dd.isFixed) = 0) := by decide

/-- Helper for C4: the per-dimension loop of `dyn_compute_shape` never fails
with the non-fixed-count message (its only error is the `0`-or-`-1` mismatch one). -/
theorem dynLoop_ne_oneNonFixedMsg (dims : List Int) :
    ∀ (dds : List DynDim) (i : Nat) (acc : Nat × Nat),
      dynLoop dims dds i acc ≠ .error oneNonFixedMsg := by
  intro dds
  induction dds with
  | nil => intro i acc h; simp [dynLoop] at h
  | cons d rest ih =>
    intro i acc h
    rw [dynLoop] at h
    by_cases hf : d.isFixed
    · rw [if_pos hf] at h; exact ih _ _ h
    · rw [if_neg hf] at h
      by_cases hz : dims.getD i 0 = 0 ∨ dims.getD i 0 = -1
      · rw [if_pos hz] at h; exact ih _ _ h
      · rw [if_neg hz] at h
        exact absurd (Except.error.inj h) (by decide)

/-- **C4** (amended): on the dynamic path (reached when the requested dims hold
at most one `-1`; with two `-1`s the `-1`-count error fires first), an input
whose number of non-fixed dynamic dimensions differs from one — more than one,
but also zero — fails with the "only one non-fixed" error, and an input with
exactly one non-fixed dimension is never rejected with that error. -/
theorem reshape_dyn_nonfixed_count (dims : List Int) (t : Nat) (dds : List DynDim)
    (hneg : dims.count (-1) ≤ 1) :
    (dds.countP (fun dd => ¬ dd.isFixed) ≠ 1 →
      reshapeComputeShape dims (.dyn t dds) = .error oneNonFixedMsg) ∧
    (dds.countP (fun dd => ¬ dd.isFixed) = 1 →
      reshapeComputeShape dims (.dyn t dds) ≠ .error oneNonFixedMsg) := by
  have hif : ¬ (dims.count (-1) > 1) := by omega
  constructor
  · intro hcnt
    rw [reshapeComputeShape, if_neg hif]
    rw [dynComputeShape, if_pos hcnt]
    rfl
  · intro hcnt h
    rw [reshapeComputeShape, if_neg hif] at h
    rw [dynComputeShape, if_neg (by rw [hcnt]; exact fun hc => hc rfl)] at h
    rcases hdl : dynLoop dims dds 0 (1, 1) with e | ⟨a, b⟩
    · rw [hdl] at h
      simp only [Except.map] at h
      exact dynLoop_ne_oneNonFixedMsg dims dds 0 (1, 1) (hdl.trans (Except.error.inj h ▸ rfl))
    · rw [hdl] at h
      dsimp only at h
      by_cases hne : a ≠ b
      · rw [if_pos hne] at h
        simp only [Except.map] at h
        exact strAppend_ne_of_other_start
          "Reshape: Number of fixed elements must match. Input: " _
          (by decide) _ (Except.error.inj h)
      · rw [if_neg hne] at h
        simp [Except.map] at h

/-- **C4** (witness for the amended theorem, instantiated at one non-fixed
dimension). -/
theorem reshape_dyn_nonfixed_count_witness :
    ([0] : List Int).count (-1) ≤ 1 ∧
    (([⟨1, 5⟩] : List DynDim).countP (fun dd => ¬ dd.isFixed) = 1 →
      reshapeComputeShape [0] (.dyn 0 [⟨1, 5⟩]) ≠ .error oneNonFixedMsg) :=
  ⟨by decide, (reshape_dyn_nonfixed_count [0] 0 [⟨1, 5⟩] (by decide)).2⟩

/-- Helper: a list of integers all at least `1` contains no `-1`. -/
theorem count_neg_one_eq_zero {dims : List Int} (h : ∀ d ∈ dims, 1 ≤ d) :
    dims.count (-1) = 0 :=
  List.count_eq_zero.mpr (fun hm => by have := h _ hm; omega)

/-- Helper: with strictly positive in-range entries the first resolution loop of
`static_compute_shape` is just the numeric conversion. -/
theorem resolveDims0_pos : ∀ (dims : List Int) (idims : List Nat),
    (∀ d ∈ dims, 1 ≤ d) → (∀ d ∈ dims, d < 2 ^ 63) →
    resolveDims0 dims idims = dims.map Int.toNat := by
  intro dims
  induction dims with
  | nil => intro idims _ _; rfl
  | cons d ds ih =>
    intro idims h hb
    have h1 : 1 ≤ d := h d (by simp)
    have h2 : d < 2 ^ 63 := hb d (by simp)
    have hlt : d < 2 ^ 64 := by
      have : (2:Int) ^ 63 < 2 ^ 64 := by norm_num
      omega
    rw [resolveDims0, List.map_cons]
    congr 1
    · rw [if_neg (by omega), if_neg (by omega)]
      unfold toSizeT
      rw [Int.emod_eq_of_lt (by omega) hlt]
    · exact ih idims.tail (fun x hx => h x (List.mem_cons_of_mem _ hx))
        (fun x hx => hb x (List.mem_cons_of_mem _ hx))

/-- Helper: the product of the `toNat`s of nonnegative integers is their
product. -/
theorem prod_map_toNat : ∀ (dims : List Int), (∀ d ∈ dims, 0 ≤ d) →
    (((dims.map Int.toNat).prod : Nat) : Int) = dims.prod := by
  intro dims
  induction dims with
  | nil => intro _; simp
  | cons d ds ih =>
    intro h
    simp only [List.map_cons, List.prod_cons, Nat.cast_mul]
    rw [Int.toNat_of_nonneg (h d (by simp)), ih (fun x hx => h x (List.mem_cons_of_mem _ hx))]

/-- **C1**: for a standard (contiguous, row-major) input shape and positive
requested dims whose product equals the input's element count, reshape's
`compute_shape` succeeds and returns the standard shape with exactly the
requested lens. -/
theorem reshape_standard_static_ok (s : MShape) (dims : List Int)
    (hstd : s.standard = true)
    (hpos : ∀ d ∈ dims, 1 ≤ d) (hbound : ∀ d ∈ dims, d < 2 ^ 63)
    (hprod : dims.prod = (s.elements : Int)) :
    reshapeComputeShape dims (.st s) =
      .ok (.st (mkStandard s.type (dims.map Int.toNat))) ∧
    (mkStandard s.type (dims.map Int.toNat)).standard = true ∧
    (mkStandard s.type (dims.map Int.toNat)).lens = dims.map Int.toNat := by
  have hc0 : dims.count (-1) = 0 := count_neg_one_eq_zero hpos
  refine ⟨?_, by simp [mkStandard, MShape.standard], rfl⟩
  rw [reshapeComputeShape, if_neg (by omega)]
  show (staticComputeShape dims s).map ROutput.st = _
  have hres : resolveDims dims s = dims.map Int.toNat := by
    rw [resolveDims, if_neg (by omega)]
    exact resolveDims0_pos dims s.lens hpos hbound
  have helems : (dims.map Int.toNat).prod = s.elements := by
    have := prod_map_toNat dims (fun d hd => le_trans (by omega) (hpos d hd))
    rw [hprod] at this
    exact_mod_cast this
  rw [staticComputeShape, hres, reshapeDims, if_pos hstd]
  have : (mkStandard s.type (dims.map Int.toNat)).elements = s.elements := helems
  simp only [this, ne_eq, not_true_eq_false, if_neg, ite_false, Except.map, not_false_eq_true]

/-- **C1** (witness): the standard `[2,3]` shape reshaped to `[3,2]`. -/
theorem reshape_standard_static_ok_witness :
    MShape.standard ⟨0, [2, 3], [3, 1]⟩ = true ∧
    reshapeComputeShape [3, 2] (.st ⟨0, [2, 3], [3, 1]⟩) =
      .ok (.st (mkStandard 0 (([3, 2] : List Int).map Int.toNat))) :=
  ⟨by decide,
    (reshape_standard_static_ok ⟨0, [2, 3], [3, 1]⟩ [3, 2] (by decide) (by decide)
      (by decide) (by decide)).1⟩

/-- Helper: a product of positive naturals is positive. -/
theorem one_le_prod_nat : ∀ {L : List Nat}, (∀ e ∈ L, 1 ≤ e) → 1 ≤ L.prod := by
  intro L
  induction L with
  | nil => intro _; simp
  | cons a rest ih =>
    intro h
    rw [List.prod_cons]
    exact Nat.one_le_iff_ne_zero.mpr (Nat.mul_ne_zero
      (by have := h a (by simp); omega)
      (by have := ih (fun e he => h e (by simp [he])); omega))

/-- Helper: a nonempty product of naturals all at least two is at least two. -/
theorem two_le_prod_nat : ∀ {L : List Nat}, (∀ d ∈ L, 2 ≤ d) → L ≠ [] → 2 ≤ L.prod := by
  intro L h hne
  cases L with
  | nil => exact absurd rfl hne
  | cons a rest =>
    rw [List.prod_cons]
    have ha := h a (by simp)
    have h1 : 1 ≤ rest.prod := one_le_prod_nat (fun e he => by have := h e (by simp [he]); omega)
    calc 2 ≤ a := ha
    _ = a * 1 := (Nat.mul_one a).symm
    _ ≤ a * rest.prod := Nat.mul_le_mul_left a h1

/-- Helper: on dims all at least two, `compute_end_dim` looking for the whole
remaining product stops exactly at the final element (prefix products are
strictly increasing, so only the full prefix hits the target). -/
theorem computeEndDimGo_exact : ∀ (L : List Nat) (x k : Nat),
    (∀ d ∈ L, 2 ≤ d) → L ≠ [] → 1 ≤ x →
    computeEndDimGo L (x * L.prod) x k = k + (L.length - 1) := by
  intro L
  induction L with
  | nil => intro x k _ hne _; exact absurd rfl hne
  | cons a rest ih =>
    intro x k h hne hx
    have h2a := h a (by simp)
    by_cases hr : rest = []
    · subst hr
      simp [computeEndDimGo]
    · have hrp : 2 ≤ rest.prod := two_le_prod_nat (fun d hd => h d (by simp [hd])) hr
      have hassoc : x * (a :: rest).prod = x * a * rest.prod := by
        rw [List.prod_cons, Nat.mul_assoc]
      have hxa : 1 ≤ x * a := by
        calc 1 ≤ 1 * 2 := by omega
        _ ≤ x * a := Nat.mul_le_mul hx h2a
      have hnotle : ¬ (x * (a :: rest).prod ≤ x * a) := by
        rw [hassoc]
        have : x * a * 2 ≤ x * a * rest.prod := Nat.mul_le_mul_left _ hrp
        omega
      simp only [computeEndDimGo]
      rw [if_neg hnotle, hassoc,
        ih (x * a) (k + 1) (fun d hd => h d (by simp [hd])) hr hxa]
      have : 1 ≤ rest.length := List.length_pos.mpr hr
      simp only [List.length_cons]
      omega

/-- Helper: when the target exceeds the whole remaining product (positive dims),
`compute_end_dim` finds no prefix and reports failure (`start`, i.e. `0`). -/
theorem computeEndDimGo_small : ∀ (L : List Nat) (x k d : Nat),
    (∀ e ∈ L, 1 ≤ e) → x * L.prod < d → computeEndDimGo L d x k = 0 := by
  intro L
  induction L with
  | nil => intro x k d _ _; rfl
  | cons a rest ih =>
    intro x k d h hd
    have hr1 : 1 ≤ rest.prod := one_le_prod_nat (fun e he => h e (by simp [he]))
    have hassoc : x * (a :: rest).prod = x * a * rest.prod := by
      rw [List.prod_cons, Nat.mul_assoc]
    rw [hassoc] at hd
    have hle : x * a ≤ x * a * rest.prod := Nat.le_mul_of_pos_right _ hr1
    simp only [computeEndDimGo]
    rw [if_neg (by omega)]
    exact ih (x * a) (k + 1) d (fun e he => h e (by simp [he])) hd

/-- Helper: the full-merge squeeze step of the walk.  With every input dim at
least two, the walk on target `[prod]` enters the squeeze branch at once, the
prefix scan stops exactly at the last input dim, and the merge succeeds exactly
when the strides are contiguous, producing the last input stride. -/
theorem reshapeWalk_full_squeeze (a : Nat) (rest : List Nat) (S : List Nat)
    (hlen : S.length = rest.length + 1) (h2 : ∀ d ∈ a :: rest, 2 ≤ d) (hrne : rest ≠ []) :
    reshapeWalk (a :: rest) S [(a :: rest).prod] ((a :: rest).length + 1) 0 0 [] =
      if canStridesMerge (a :: rest) S then some [S.getD rest.length 0] else none := by
  have ha : 2 ≤ a := h2 a (by simp)
  have hrp : 2 ≤ rest.prod := two_le_prod_nat (fun d hd => h2 d (by simp [hd])) hrne
  have hprodgt : a < (a :: rest).prod := by
    rw [List.prod_cons]
    calc a < a * 2 := by omega
    _ ≤ a * rest.prod := Nat.mul_le_mul_left a hrp
  have hn : computeEndDim (a :: rest) ((a :: rest).prod) = rest.length := by
    rw [computeEndDim]
    have h := computeEndDimGo_exact (a :: rest) 1 0 h2 (by simp) (le_refl 1)
    rw [Nat.one_mul] at h
    simpa using h
  generalize hP : (a :: rest).prod = P at hprodgt hn ⊢
  have hfuel : (a :: rest : List Nat).length + 1 = rest.length + 1 + 1 := by simp
  rw [hfuel, reshapeWalk, if_pos (⟨by simp, by simp⟩ : 0 < (a :: rest : List Nat).length ∧
    0 < ([P] : List Nat).length)]
  simp only [List.getD_cons_zero, List.drop_zero]
  rw [if_neg (Nat.ne_of_gt hprodgt), if_pos hprodgt, hn,
    if_neg (fun h0 => hrne (List.length_eq_zero.mp h0))]
  have htake1 : (a :: rest).take (rest.length + 1) = a :: rest := by
    have h : rest.length + 1 = (a :: rest : List Nat).length := by simp
    rw [h, List.take_length]
  have htake2 : S.take (rest.length + 1) = S := by
    rw [← hlen, List.take_length]
  rw [htake1, htake2]
  cases hcsm : canStridesMerge (a :: rest) S with
  | false => simp
  | true =>
    simp only [if_true]
    rw [reshapeWalk, if_neg (by simp only [List.length_cons]; omega)]
    simp

/-- Helper: a target dim exceeding the whole remaining input product makes the
squeeze prefix scan fail (no prefix product can match), so the walk returns
`none`. -/
theorem reshapeWalk_overshoot (a : Nat) (rest : List Nat) (S : List Nat) (m : Nat)
    (h2 : ∀ d ∈ a :: rest, 2 ≤ d) (hm : (a :: rest).prod < m) :
    reshapeWalk (a :: rest) S [m] ((a :: rest).length + 1) 0 0 [] = none := by
  have ha : 2 ≤ a := h2 a (by simp)
  have hrp : 1 ≤ rest.prod := one_le_prod_nat (fun d hd => by have := h2 d (by simp [hd]); omega)
  have haprod : a ≤ (a :: rest).prod := by
    rw [List.prod_cons]
    calc a = a * 1 := (Nat.mul_one a).symm
    _ ≤ a * rest.prod := Nat.mul_le_mul_left a hrp
  have ham : a < m := by omega
  have hn : computeEndDim (a :: rest) m = 0 := by
    rw [computeEndDim]
    exact computeEndDimGo_small (a :: rest) 1 0 m
      (fun e he => by have := h2 e he; omega) (by omega)
  have hfuel : (a :: rest : List Nat).length + 1 = rest.length + 1 + 1 := by simp
  rw [hfuel, reshapeWalk, if_pos (⟨by simp, by simp⟩ : 0 < (a :: rest : List Nat).length ∧
    0 < ([m] : List Nat).length)]
  simp only [List.getD_cons_zero, List.drop_zero]
  rw [if_neg (Nat.ne_of_gt ham), if_pos ham, hn, if_pos rfl]

/-- **C3**: the squeeze (merge) behaviour of the static reshape walk on a
non-standard input whose dims are all at least two.  Merging every input dim
into the single target dim `prod L` succeeds — carrying the innermost stride —
exactly when the merged dims are stride-contiguous (`can_strides_merge`), and
fails producing no shape value otherwise; and a target dim larger than every
accumulated prefix product (no exact prefix match) always fails with no value. -/
theorem reshape_squeeze_merge (t : Nat) (L S : List Nat) (m : Nat)
    (hlen : S.length = L.length) (h2 : ∀ d ∈ L, 2 ≤ d) (hL : 2 ≤ L.length)
    (hns : MShape.standard ⟨t, L, S⟩ = false) :
    (reshapeDims ⟨t, L, S⟩ [L.prod] =
      if canStridesMerge L S then some ⟨t, [L.prod], [S.getD (L.length - 1) 0]⟩ else none) ∧
    (L.prod < m → reshapeDims ⟨t, L, S⟩ [m] = none) := by
  cases L with
  | nil => simp at hL
  | cons a rest =>
  cases rest with
  | nil => simp at hL
  | cons b rest2 =>
  have hrne : (b :: rest2 : List Nat) ≠ [] := by simp
  have hlen' : S.length = (b :: rest2 : List Nat).length + 1 := by simpa using hlen
  have hstd : ¬ ((⟨t, a :: b :: rest2, S⟩ : MShape).standard = true) := by simp [hns]
  constructor
  · rw [reshapeDims, if_neg hstd]
    dsimp only
    rw [reshapeWalk_full_squeeze a (b :: rest2) S hlen' h2 hrne]
    cases hcsm : canStridesMerge (a :: b :: rest2) S with
    | false => simp
    | true =>
      simp only [if_true]
      rw [trailingOnes]
      rw [if_neg (by simp)]
      simp
  · intro hm
    rw [reshapeDims, if_neg hstd]
    dsimp only
    rw [reshapeWalk_overshoot a (b :: rest2) S m h2 hm]

/-- **C3** (witness): the spec's permuted-stride example — lens `[2,3,4]` with
strides `[12,1,3]` (dims 1–2 transposed) cannot be squeezed, and
`reshape_dims` produces no value. -/
theorem reshape_squeeze_merge_witness :
    MShape.standard ⟨0, [2, 3, 4], [12, 1, 3]⟩ = false ∧
    canStridesMerge [2, 3, 4] [12, 1, 3] = false ∧
    ([2, 3, 4] : List Nat).prod = 24 ∧
    reshapeDims ⟨0, [2, 3, 4], [12, 1, 3]⟩ [([2, 3, 4] : List Nat).prod] = none :=
  ⟨by decide, by decide, by decide, by
    have h := (reshape_squeeze_merge 0 [2, 3, 4] [12, 1, 3] 0
      (by decide) (by decide) (by decide) (by decide)).1
    rw [h]; decide⟩

/-- Helper: whatever `get_reduce` returns came with enough fuel to build an
explicit single-consumer pointwise chain to a counted reduction. -/
theorem getReduce_sound : ∀ (n : Nat) (M : GModule) (i v : Nat),
    getReduce M n i = some v → ∃ p, IsRedChain M i p ∧ p.length < n := by
  intro n
  induction n with
  | zero => intro M i v h; simp [getReduce] at h
  | succ n ih =>
    intro M i v h
    rw [getReduce] at h
    by_cases hex : (M.instAt i).op.name = "gpu::parallel_reduce" ∨
        (M.instAt i).op.name = "reduce_mean"
    · rw [if_pos hex] at h; exact absurd h (by simp)
    · rw [if_neg hex] at h
      by_cases hred : strContains "reduce" (M.instAt i).op.name = true
      · exact ⟨[], ⟨hex, hred⟩, by simp⟩
      · rw [if_neg hred] at h
        by_cases hpw : (M.instAt i).op.name = "pointwise" ∧
            (M.instAt i).inputs.length = 1 ∧ (outputsOf M i).length = 1
        · rw [if_pos hpw] at h
          obtain ⟨j, hj⟩ := List.length_eq_one.mp hpw.2.2
          rw [hj] at h
          simp only [List.headD_cons] at h
          obtain ⟨p, hp, hlt⟩ := ih M j v h
          exact ⟨j :: p, ⟨⟨hpw.1, hpw.2.1⟩, hj, hp⟩, by simpa using hlt⟩
        · rw [if_neg hpw] at h; exact absurd h (by simp)

/-- Helper: a chain shorter than the available fuel is found by `get_reduce`. -/
theorem getReduce_complete : ∀ (p : List Nat) (M : GModule) (i n : Nat),
    IsRedChain M i p → p.length < n → (getReduce M n i).isSome := by
  intro p
  induction p with
  | nil =>
    intro M i n h hn
    obtain ⟨n, rfl⟩ : ∃ m, n = m + 1 := ⟨n - 1, by simp at hn; omega⟩
    rw [getReduce, if_neg h.1, if_pos h.2]
    simp
  | cons j rest ih =>
    intro M i n h hn
    obtain ⟨n, rfl⟩ : ∃ m, n = m + 1 := ⟨n - 1, by simp at hn; omega⟩
    obtain ⟨⟨hname, hinp⟩, hout, hrest⟩ := h
    have hlen1 : (outputsOf M i).length = 1 := by rw [hout]; rfl
    rw [getReduce, if_neg (by rw [hname]; decide), if_neg (by rw [hname]; decide),
      if_pos ⟨hname, hinp, hlen1⟩, hout]
    exact ih M j n hrest (by simpa using hn)

/-- Helper: the chain out of an instruction is unique — each pointwise step has
exactly one consumer, and an instruction cannot be both a counted reduction and
a pointwise step. -/
theorem chain_unique : ∀ (p : List Nat) (M : GModule) (i : Nat) (q : List Nat),
    IsRedChain M i p → IsRedChain M i q → p = q := by
  intro p
  induction p with
  | nil =>
    intro M i q hp hq
    cases q with
    | nil => rfl
    | cons j rest =>
      have h1 : strContains "reduce" (M.instAt i).op.name = true := hp.2
      have h2 : (M.instAt i).op.name = "pointwise" := hq.1.1
      rw [h2] at h1
      exact absurd h1 (by decide)
  | cons j rest ih =>
    intro M i q hp hq
    cases q with
    | nil =>
      have h1 : strContains "reduce" (M.instAt i).op.name = true := hq.2
      have h2 : (M.instAt i).op.name = "pointwise" := hp.1.1
      rw [h2] at h1
      exact absurd h1 (by decide)
    | cons j' rest' =>
      have hj : j = j' := by
        have := hp.2.1.symm.trans hq.2.1
        exact (List.cons.injEq _ _ _ _).mp this |>.1
      subst hj
      rw [ih M j rest' hp.2.2 hq.2.2]

/-- Helper: every element of a chain heads its own (strictly shorter) chain. -/
theorem chain_suffix : ∀ (p : List Nat) (M : GModule) (i : Nat),
    IsRedChain M i p → ∀ x ∈ p, ∃ s, IsRedChain M x s ∧ s.length < p.length := by
  intro p
  induction p with
  | nil => intro M i _ x hx; simp at hx
  | cons j rest ih =>
    intro M i h x hx
    rcases List.mem_cons.mp hx with rfl | hx'
    · exact ⟨rest, h.2.2, by simp⟩
    · obtain ⟨s, hs, hlt⟩ := ih M j h.2.2 x hx'
      exact ⟨s, hs, by simp; omega⟩

/-- Helper: the head of a chain does not occur in its own chain. -/
theorem chain_not_mem {M : GModule} {i : Nat} {p : List Nat}
    (h : IsRedChain M i p) (hm : i ∈ p) : False := by
  obtain ⟨s, hs, hlt⟩ := chain_suffix p M i h i hm
  rw [chain_unique s M i p hs h] at hlt
  omega

/-- Helper: the nodes of a chain, head included, are pairwise distinct. -/
theorem chain_nodup : ∀ (p : List Nat) (M : GModule) (i : Nat),
    IsRedChain M i p → (i :: p).Nodup := by
  intro p
  induction p with
  | nil => intro M i _; simp
  | cons j rest ih =>
    intro M i h
    have hrec := ih M j h.2.2
    exact List.nodup_cons.mpr ⟨fun hm => chain_not_mem h hm, hrec⟩

/-- Helper: all chain nodes after the head are live (consumers live in the
module order). -/
theorem chain_mem_order : ∀ (p : List Nat) (M : GModule) (i : Nat),
    IsRedChain M i p → ∀ x ∈ p, x ∈ M.order := by
  intro p
  induction p with
  | nil => intro M i _ x hx; simp at hx
  | cons j rest ih =>
    intro M i h x hx
    have hj : j ∈ M.order := by
      have : j ∈ outputsOf M i := by rw [h.2.1]; simp
      exact List.mem_of_mem_filter this
    rcases List.mem_cons.mp hx with rfl | hx'
    · exact hj
    · exact ih M j h.2.2 x hx'

/-- Helper: with a nodup order, any chain from a live instruction is shorter
than the order. -/
theorem chain_length_bound {M : GModule} {i : Nat} {p : List Nat}
    (hi : i ∈ M.order) (h : IsRedChain M i p) :
    p.length + 1 ≤ M.order.length := by
  have hgood : (i :: p) ⊆ M.order := by
    intro x hx
    rcases List.mem_cons.mp hx with rfl | hx'
    · exact hi
    · exact chain_mem_order p M i h x hx'
  have := (List.subperm_of_subset (chain_nodup p M i h) hgood).length_le
  simpa using this

/-- Helper: a nodup list whose filtered part has more than one element yields
two distinct satisfying members. -/
theorem two_of_filter {l : List Nat} {p : Nat → Bool} (hn : l.Nodup)
    (h : 1 < (l.filter p).length) :
    ∃ a ∈ l, ∃ b ∈ l, a ≠ b ∧ p a = true ∧ p b = true := by
  have hfn : (l.filter p).Nodup := hn.filter p
  cases hf : l.filter p with
  | nil => rw [hf] at h; simp at h
  | cons x tl =>
    cases tl with
    | nil => rw [hf] at h; simp at h
    | cons y tl2 =>
      have hx : x ∈ l.filter p := by rw [hf]; simp
      have hy : y ∈ l.filter p := by rw [hf]; simp
      have hxy : x ≠ y := by
        rw [hf] at hfn
        intro he
        exact (List.nodup_cons.mp hfn).1 (he ▸ List.mem_cons_self y tl2)
      exact ⟨x, (List.mem_filter.mp hx).1, y, (List.mem_filter.mp hy).1, hxy,
        (List.mem_filter.mp hx).2, (List.mem_filter.mp hy).2⟩

/-- Helper: two distinct satisfying members make the filtered part longer than
one. -/
theorem filter_two_le {l : List Nat} {p : Nat → Bool} {a b : Nat} (ha : a ∈ l) (hb : b ∈ l)
    (hab : a ≠ b) (hpa : p a = true) (hpb : p b = true) : 1 < (l.filter p).length := by
  have ha' : a ∈ l.filter p := List.mem_filter.mpr ⟨ha, hpa⟩
  have hb' : b ∈ l.filter p := List.mem_filter.mpr ⟨hb, hpb⟩
  have hb2 : b ∈ (l.filter p).erase a := (List.mem_erase_of_ne (Ne.symm hab)).mpr hb'
  have h1 : 0 < ((l.filter p).erase a).length := List.length_pos_of_mem hb2
  have h2 : ((l.filter p).erase a).length = (l.filter p).length - 1 :=
    List.length_erase_of_mem ha'
  omega

/-- **C5** (counterexample): an instruction with two consumers, both of which
*are* reduction operators (their name `reduce_mean` contains `"reduce"`), is
not matched by `split_reduce`, because `get_reduce` explicitly excludes
`reduce_mean` — contradicting "every consumer chain ending at a reduction
operator counts". -/
theorem split_reduce_skips_reduce_mean :
    (let M : GModule :=
      { arena := [⟨.base "x" 0, [], .ord 0⟩, ⟨.base "reduce_mean" 0, [0], .ord 1⟩,
                  ⟨.base "reduce_mean" 0, [0], .ord 1⟩],
        order := [0, 1, 2] }
     (outputsOf M 0).length = 2 ∧
     (∀ o ∈ outputsOf M 0, strContains "reduce" ((M.instAt o).op.name) = true) ∧
     splitReduce M 3 0 = false) := by decide

/-- **C5** (amended): `split_reduce` matches an instruction exactly when two
distinct consumers each reach a counted reduction — directly or through a chain
of single-input, single-consumer `pointwise` instructions — where a counted
reduction is an instruction whose name contains `"reduce"` but is neither
`gpu::parallel_reduce` nor `reduce_mean` (those two are excluded and their
chains do not count). -/
theorem split_reduce_characterization (M : GModule) (i fuel : Nat)
    (hord : M.order.Nodup) (hfuel : M.order.length ≤ fuel) :
    splitReduce M fuel i = true ↔
      ∃ o1 ∈ outputsOf M i, ∃ o2 ∈ outputsOf M i, o1 ≠ o2 ∧
        ReachesReduce M o1 ∧ ReachesReduce M o2 := by
  have houts_nodup : (outputsOf M i).Nodup := hord.filter _
  have houts_sub : ∀ x ∈ outputsOf M i, x ∈ M.order := fun x hx => List.mem_of_mem_filter hx
  have hiff : ∀ o ∈ outputsOf M i,
      ((getReduce M fuel o).isSome = true ↔ ReachesReduce M o) := by
    intro o ho
    constructor
    · intro hs
      obtain ⟨v, hv⟩ := Option.isSome_iff_exists.mp hs
      obtain ⟨p, hp, _⟩ := getReduce_sound fuel M o v hv
      exact ⟨p, hp⟩
    · intro ⟨p, hp⟩
      have hb := chain_length_bound (houts_sub o ho) hp
      exact getReduce_complete p M o fuel hp (by omega)
  rw [splitReduce]
  constructor
  · intro h
    by_cases hlt : (outputsOf M i).length < 2
    · rw [if_pos hlt] at h; exact absurd h (by simp)
    · rw [if_neg hlt] at h
      have h2 : 1 < ((outputsOf M i).filter
          (fun o => (getReduce M fuel o).isSome)).length := by simpa using h
      obtain ⟨a, ha, b, hb, hab, hpa, hpb⟩ := two_of_filter houts_nodup h2
      exact ⟨a, ha, b, hb, hab, (hiff a ha).mp hpa, (hiff b hb).mp hpb⟩
  · intro ⟨a, ha, b, hb, hab, hra, hrb⟩
    have h2 : 1 < ((outputsOf M i).filter
        (fun o => (getReduce M fuel o).isSome)).length :=
      filter_two_le ha hb hab ((hiff a ha).mpr hra) ((hiff b hb).mpr hrb)
    have hge : ¬ ((outputsOf M i).length < 2) := by
      have := List.length_filter_le (fun o => (getReduce M fuel o).isSome) (outputsOf M i)
      omega
    rw [if_neg hge]
    simpa using h2

/-- **C5** (witness for the amended theorem): a module where two pointwise
chains from one instruction reach two `reduce_sum` reductions. -/
theorem split_reduce_characterization_witness :
    (let M : GModule :=
      { arena := [⟨.base "x" 0, [], .ord 0⟩,
                  ⟨.base "pointwise" 0, [0], .ord 1⟩,
                  ⟨.base "pointwise" 0, [0], .ord 2⟩,
                  ⟨.base "reduce_sum" 0, [1], .ord 9⟩,
                  ⟨.base "reduce_sum" 0, [2], .ord 9⟩],
        order := [0, 1, 2, 3, 4] }
     M.order.Nodup ∧ M.order.length ≤ 5 ∧
     (splitReduce M 5 0 = true ↔
       ∃ o1 ∈ outputsOf M 0, ∃ o2 ∈ outputsOf M 0, o1 ≠ o2 ∧
         ReachesReduce M o1 ∧ ReachesReduce M o2)) :=
  ⟨by decide, by decide, split_reduce_characterization _ 0 5 (by decide) (by decide)⟩

set_option maxRecDepth 100000 in
/-- **C7** (counterexample): the reduction-fusion pass is not idempotent.  In
this module the first scan's rewrite at `y` (fusing the reductions reached
through `c1`, `c2`) removes one consumer of the pointwise `pw1`, which unblocks
the `get_reduce` lookthrough from the earlier instruction `x`; the forward scan
has already passed `x`, so only a second run fuses the reductions behind
`pw1`/`pw2` — the second run changes the module.  The pass is instantiated at
the order-keeping partitioning routine `stablePart`, one admissible behaviour
of the `std::partition` contract, so this is a possible execution of the
source. -/
theorem prepare_reduce_not_idempotent :
    (let sem : String → Nat → Sh → Nat := fun _ _ _ => 100
     let M : GModule :=
      { arena := [
          ⟨.base "x" 0, [], .ord 0⟩,
          ⟨.base "y" 0, [], .ord 1⟩,
          ⟨.base "pointwise" 0, [1], .ord 2⟩,
          ⟨.base "pointwise" 0, [1], .ord 3⟩,
          ⟨.base "pointwise" 0, [0], .ord 4⟩,
          ⟨.base "pointwise" 0, [0], .ord 5⟩,
          ⟨.base "reduce" 0, [2, 4], .ord 100⟩,
          ⟨.base "reduce" 0, [3], .ord 100⟩,
          ⟨.base "reduce" 0, [4], .ord 100⟩,
          ⟨.base "reduce" 0, [5], .ord 100⟩],
        order := [0, 1, 2, 3, 4, 5, 6, 7, 8, 9] }
     prepareReducePass stablePart sem (prepareReducePass stablePart sem M) ≠
       prepareReducePass stablePart sem M ∧
     prepareReducePass stablePart sem M ≠ M) := by decide

/-- **C7** (amended): what does hold is that the fused `gpu::parallel_reduce`
instructions are never counted as reachable reductions — `get_reduce` returns
nothing on them at any fuel — so a second run never re-fuses a fused group; but
the pass is not idempotent in general (see the counterexample), since a
first-run rewrite can shrink a pointwise instruction's consumer count and
unblock a lookthrough match that the forward scan has already passed. -/
theorem parallel_reduce_never_counted (M : GModule) (fuel i : Nat)
    (h : (M.instAt i).op.name = "gpu::parallel_reduce") :
    getReduce M fuel i = none := by
  cases fuel with
  | zero => rfl
  | succ n => rw [getReduce, if_pos (Or.inl h)]

/-- **C7** (witness for the amended theorem). -/
theorem parallel_reduce_never_counted_witness :
    (let M : GModule :=
      { arena := [⟨.parallelReduce (.base "reduce_sum" 0), [], .ord 0⟩], order := [0] }
     (M.instAt 0).op.name = "gpu::parallel_reduce" ∧ getReduce M 3 0 = none) :=
  ⟨by decide, parallel_reduce_never_counted _ 3 0 (by decide)⟩

/-- Helper: reading back the updated arena slot. -/
theorem getD_set_self {l : List Inst} {i : Nat} (h : i < l.length) (x : Inst) :
    (l.set i x).getD i default = x := by
  rw [List.getD_eq_getElem?_getD, List.getElem?_set_self h]
  rfl

/-- Helper: updating one arena slot leaves the others unchanged. -/
theorem getD_set_ne {l : List Inst} {i j : Nat} (h : i ≠ j) (x : Inst) :
    (l.set i x).getD j default = l.getD j default := by
  rw [List.getD_eq_getElem?_getD, List.getElem?_set_ne h, ← List.getD_eq_getElem?_getD]

/-- Helper: the replacement fold of `compile_ops::apply` over any nodup list of
valid plan instructions with single compiled results: the order is untouched,
every listed instruction's definition becomes its compiled result, everything
else is unchanged. -/
theorem foldl_planReplace (env : CompileEnv) :
    ∀ (l : List Nat) (M : GModule), l.Nodup → (∀ j ∈ l, j < M.arena.length) →
    (∀ j ∈ l, (planResults env j).length = 1) →
    ((List.foldl (planReplace env) M l).order = M.order ∧
     (List.foldl (planReplace env) M l).arena.length = M.arena.length ∧
     (∀ j ∈ l, (List.foldl (planReplace env) M l).instAt j =
        (planResults env j).headD default) ∧
     (∀ j, j ∉ l → (List.foldl (planReplace env) M l).instAt j = M.instAt j)) := by
  intro l
  induction l with
  | nil => intro M _ _ _; exact ⟨rfl, rfl, by simp, fun j _ => rfl⟩
  | cons a l ih =>
    intro M hnd hlt hone
    have ha : a < M.arena.length := hlt a (by simp)
    have hstep : planReplace env M a =
        { M with arena := M.arena.set a ((planResults env a).headD default) } := by
      simp only [planReplace]
      rw [if_pos (hone a (by simp))]
    have hM1o : (planReplace env M a).order = M.order := by rw [hstep]
    have hM1l : (planReplace env M a).arena.length = M.arena.length := by
      rw [hstep]
      exact List.length_set M.arena a _
    have hfold : List.foldl (planReplace env) M (a :: l) =
        List.foldl (planReplace env) (planReplace env M a) l := rfl
    obtain ⟨ho, hl, hin, hout⟩ := ih (planReplace env M a) (List.nodup_cons.mp hnd).2
      (fun j hj => by rw [hM1l]; exact hlt j (by simp [hj]))
      (fun j hj => hone j (by simp [hj]))
    refine ⟨by rw [hfold, ho, hM1o], by rw [hfold, hl, hM1l], ?_, ?_⟩
    · intro j hj
      rcases List.mem_cons.mp hj with rfl | hj'
      · rw [hfold, hout j (List.nodup_cons.mp hnd).1, hstep]
        simp only [GModule.instAt]
        exact getD_set_self ha _
      · rw [hfold]; exact hin j hj'
    · intro j hj
      rw [hfold, hout j (fun hm => hj (by simp [hm])), hstep]
      simp only [GModule.instAt]
      exact getD_set_ne (fun he => hj (by simp [he])) _

/-- **C8**: when every discovered placeholder (`gpu::precompile_op`) has exactly
one tuning candidate, one `compile_ops` pass leaves the module order unchanged,
replaces every placeholder's definition with its (sole) compiled result —
applied by a sequential fold in discovery (scan) order — leaves every other
instruction untouched, and leaves zero placeholders in the module. -/
theorem compile_ops_replaces_all (env : CompileEnv) (M : GModule)
    (hord : M.order.Nodup)
    (hwf : ∀ j ∈ M.order, j < M.arena.length)
    (hone : ∀ j ∈ precompileIds M, ∃ s, env.tuning j = some [s])
    (hcomp : ∀ j s, (env.compiled j s).op.name ≠ "gpu::precompile_op") :
    (compileOpsApply env M).order = M.order ∧
    (∀ j ∈ precompileIds M,
      (compileOpsApply env M).instAt j = (planResults env j).headD default) ∧
    (∀ j, j ∉ precompileIds M → (compileOpsApply env M).instAt j = M.instAt j) ∧
    precompileIds (compileOpsApply env M) = [] := by
  have hnd : (precompileIds M).Nodup := hord.filter _
  have hsub : ∀ j ∈ precompileIds M, j ∈ M.order := fun j hj => List.mem_of_mem_filter hj
  have hres : ∀ j ∈ precompileIds M, (planResults env j).length = 1 := by
    intro j hj
    obtain ⟨s, hs⟩ := hone j hj
    rw [planResults, hs]
    rfl
  have hco : compileOpsApply env M = List.foldl (planReplace env) M (precompileIds M) := rfl
  obtain ⟨ho, _, hin, hout⟩ := foldl_planReplace env (precompileIds M) M hnd
    (fun j hj => hwf j (hsub j hj)) hres
  rw [hco]
  refine ⟨ho, hin, hout, ?_⟩
  rw [precompileIds, ho, List.filter_eq_nil_iff]
  intro j hj
  by_cases hjp : j ∈ precompileIds M
  · obtain ⟨s, hs⟩ := hone j hjp
    have hcj : (List.foldl (planReplace env) M (precompileIds M)).instAt j =
        env.compiled j s := by
      rw [hin j hjp, planResults, hs]
      rfl
    rw [hcj]
    simpa using hcomp j s
  · rw [hout j hjp]
    have hnn : ¬ ((M.instAt j).op.name = "gpu::precompile_op") := by
      intro hname
      exact hjp (List.mem_filter.mpr ⟨hj, by simpa using hname⟩)
    simpa using hnn

/-- **C8** (witness): two placeholders, each with one candidate, both replaced. -/
theorem compile_ops_replaces_all_witness :
    (let env : CompileEnv :=
      { tuning := fun _ => some [7],
        compiled := fun j s => ⟨.base "gpu::code_object" s, [j], .ord j⟩,
        compiledDefault := fun _ => default }
     let M : GModule :=
      { arena := [⟨.base "gpu::precompile_op" 0, [], .ord 0⟩,
                  ⟨.base "gpu::precompile_op" 1, [0], .ord 1⟩],
        order := [0, 1] }
     (compileOpsApply env M).order = M.order ∧
     precompileIds (compileOpsApply env M) = []) := by
  refine ⟨?_, ?_⟩
  · exact (compile_ops_replaces_all _ _ (by decide) (by decide)
      (fun j _ => ⟨7, rfl⟩) (fun j s => by simp [Oper.name])).1
  · exact (compile_ops_replaces_all _ _ (by decide) (by decide)
      (fun j _ => ⟨7, rfl⟩) (fun j s => by simp [Oper.name])).2.2.2

/-- Helper: inserting before an anchor is, up to permutation, consing. -/
theorem insertAnchor_perm (l : List Nat) (a : Option Nat) (x : Nat) :
    (insertBeforeAnchor l a x).Perm (x :: l) := by
  cases a with
  | none => exact List.perm_append_singleton x l
  | some a =>
    rw [insertBeforeAnchor]
    by_cases ha : a ∈ l
    · rw [if_pos ha]
      have h := @List.perm_middle _ x (l.takeWhile (fun y => y ≠ a))
        (l.dropWhile (fun y => y ≠ a))
      rw [List.takeWhile_append_dropWhile] at h
      exact h
    · rw [if_neg ha]
      exact List.perm_append_singleton x l

/-- Helper: moving a live instruction permutes the order and keeps the arena. -/
theorem moveIns_facts {m : GModule} {x : Nat} (a : Option Nat) (hx : x ∈ m.order) :
    (moveIns m x a).arena = m.arena ∧ (moveIns m x a).order.Perm m.order := by
  rw [moveIns]
  by_cases hax : a = some x
  · rw [if_pos hax]; exact ⟨rfl, List.Perm.refl _⟩
  · rw [if_neg hax]
    exact ⟨rfl, ((insertAnchor_perm _ a x).trans (List.perm_cons_erase hx).symm)⟩

/-- Helper: the input-moving fold of `find_multi_reduce::apply` permutes the
order and keeps the arena, for inputs that are live (or the matched instruction
itself, which is skipped). -/
theorem movesFold_facts (i : Nat) (anchor : Option Nat) :
    ∀ (is_ : List Nat) (m : GModule), (∀ x ∈ is_, x = i ∨ x ∈ m.order) →
    ((is_.foldl (fun m inp => if inp = i then m else moveIns m inp anchor) m).arena = m.arena ∧
     (is_.foldl (fun m inp => if inp = i then m else moveIns m inp anchor) m).order.Perm
       m.order) := by
  intro is_
  induction is_ with
  | nil => intro m _; exact ⟨rfl, List.Perm.refl _⟩
  | cons x rest ih =>
    intro m h
    have hfold : (x :: rest).foldl (fun m inp => if inp = i then m else moveIns m inp anchor) m =
        rest.foldl (fun m inp => if inp = i then m else moveIns m inp anchor)
          (if x = i then m else moveIns m x anchor) := rfl
    rw [hfold]
    by_cases hxi : x = i
    · rw [if_pos hxi]
      exact ih m (fun y hy => h y (by simp [hy]))
    · rw [if_neg hxi]
      have hx : x ∈ m.order := (h x (by simp)).resolve_left hxi
      obtain ⟨ha, hp⟩ := moveIns_facts anchor hx
      obtain ⟨ha', hp'⟩ := ih (moveIns m x anchor) (fun y hy => by
        rcases h y (by simp [hy]) with h1 | h1
        · exact Or.inl h1
        · exact Or.inr (((moveIns_facts anchor hx).2).mem_iff.mpr h1))
      exact ⟨ha'.trans ha, hp'.trans hp⟩

/-- Helper: reading the freshly appended arena slot. -/
theorem getD_append_len {l : List Inst} {x : Inst} :
    (l ++ [x]).getD l.length default = x := by
  rw [List.getD_eq_getElem?_getD, List.getElem?_concat_length]
  rfl

/-- Helper: appending to the arena leaves existing slots unchanged. -/
theorem getD_append_lt {l l' : List Inst} {j : Nat} (h : j < l.length) :
    (l ++ l').getD j default = l.getD j default := by
  rw [List.getD_eq_getElem?_getD, List.getElem?_append_left h, ← List.getD_eq_getElem?_getD]

/-- Helper: the tuple-extraction replacement fold of `find_multi_reduce::apply`
(over `enumFrom n`): order untouched, arena length kept, every group member's
definition becomes `get_tuple_elem` of its slot, everything else unchanged. -/
theorem replaceFold_facts (pid : Nat) (pi : Inst) :
    ∀ (g : List Nat) (n : Nat) (m : GModule), g.Nodup →
    (∀ r ∈ g, r < m.arena.length ∧ r ≠ pid) → m.instAt pid = pi →
    (((List.enumFrom n g).foldl (replaceStep pid) m).order = m.order ∧
     ((List.enumFrom n g).foldl (replaceStep pid) m).arena.length = m.arena.length ∧
     (∀ k, (hk : k < g.length) →
       ((List.enumFrom n g).foldl (replaceStep pid) m).instAt (g.get ⟨k, hk⟩) =
         ⟨.getTupleElem (n + k), [pid], tupleSlotShape pi.shp (n + k)⟩) ∧
     (∀ j, j ∉ g →
       ((List.enumFrom n g).foldl (replaceStep pid) m).instAt j = m.instAt j)) := by
  intro g
  induction g with
  | nil => intro n m _ _ _; exact ⟨rfl, rfl, by intro k hk; simp at hk, fun j _ => rfl⟩
  | cons r g' ih =>
    intro n m hnd hok hpid
    have hr : r < m.arena.length := (hok r (by simp)).1
    have hrpid : r ≠ pid := (hok r (by simp)).2
    have hstep : (List.enumFrom n (r :: g')).foldl (replaceStep pid) m =
        (List.enumFrom (n + 1) g').foldl (replaceStep pid) (replaceStep pid m (n, r)) := rfl
    have hm1len : (replaceStep pid m (n, r)).arena.length = m.arena.length :=
      List.length_set _ _ _
    have hm1pid : (replaceStep pid m (n, r)).instAt pid = pi := by
      show (m.arena.set r _).getD pid default = pi
      rw [getD_set_ne hrpid]
      exact hpid
    have hm1r : (replaceStep pid m (n, r)).instAt r =
        ⟨.getTupleElem n, [pid], tupleSlotShape pi.shp n⟩ := by
      show (m.arena.set r _).getD r default = _
      rw [getD_set_self hr, hpid]
    have hm1j : ∀ j, j ≠ r → (replaceStep pid m (n, r)).instAt j = m.instAt j := by
      intro j hj
      show (m.arena.set r _).getD j default = _
      exact getD_set_ne (fun he => hj he.symm) _
    obtain ⟨ho, hl, hmem, hstay⟩ := ih (n + 1) (replaceStep pid m (n, r))
      (List.nodup_cons.mp hnd).2
      (fun x hx => by rw [hm1len]; exact hok x (by simp [hx])) hm1pid
    rw [hstep]
    refine ⟨ho, by rw [hl, hm1len], ?_, ?_⟩
    · intro k hk
      cases k with
      | zero =>
        show _ = (⟨.getTupleElem (n + 0), [pid], tupleSlotShape pi.shp (n + 0)⟩ : Inst)
        have h0 : (r :: g').get ⟨0, hk⟩ = r := rfl
        rw [h0, hstay r (List.nodup_cons.mp hnd).1, hm1r]
        simp
      | succ k =>
        have hk' : k < g'.length := by simpa using hk
        have hh := hmem k hk'
        have harith : n + 1 + k = n + (k + 1) := by omega
        rw [harith] at hh
        exact hh
    · intro j hj
      rw [hstay j (fun hm => hj (by simp [hm])), hm1j j (fun he => hj (by simp [he]))]

/-- Helper: for any partitioning routine conforming to the `std::partition`
contract, `group_by` partitions its input — the concatenation of the produced
groups is a permutation of the original list. -/
theorem groupByKeyGo_flatten_perm (part : (Nat → Bool) → List Nat → List Nat × List Nat)
    (key : Nat → String × Sh) (hc : ConformsToPartition part) :
    ∀ (fuel : Nat) (l : List Nat), l.length ≤ fuel →
    ((groupByKeyGo part key fuel l).flatten).Perm l := by
  intro fuel
  induction fuel with
  | zero =>
    intro l hl
    rw [Nat.le_zero, List.length_eq_zero] at hl
    subst hl
    exact List.Perm.refl _
  | succ fuel ih =>
    intro l hl
    cases l with
    | nil => exact List.Perm.refl _
    | cons a rest =>
      rw [groupByKeyGo]
      obtain ⟨h1, h2⟩ := hc (fun x => decide (key x = key a)) (a :: rest)
      have hff : (a :: rest).filter (fun x => ! decide (key x = key a)) =
          rest.filter (fun x => ! decide (key x = key a)) := by
        rw [List.filter_cons_of_neg (by simp)]
      have hlen2 : ((part (fun x => decide (key x = key a)) (a :: rest)).2).length ≤ fuel := by
        rw [h2.length_eq, hff]
        have := List.length_filter_le (fun x => ! decide (key x = key a)) rest
        simp only [List.length_cons] at hl
        omega
      have hrec := ih _ hlen2
      have hfl : ((part (fun x => decide (key x = key a)) (a :: rest)).1 ::
            groupByKeyGo part key fuel
              (part (fun x => decide (key x = key a)) (a :: rest)).2).flatten =
          (part (fun x => decide (key x = key a)) (a :: rest)).1 ++
            (groupByKeyGo part key fuel
              (part (fun x => decide (key x = key a)) (a :: rest)).2).flatten := by
        simp
      rw [hfl]
      refine List.Perm.trans (List.Perm.append_left _ hrec) ?_
      refine List.Perm.trans (List.Perm.append h1 h2) ?_
      exact List.filter_append_perm _ _

/-- Helper: `group_by` at its standard fuel partitions the list. -/
theorem groupByKey_flatten_perm (part : (Nat → Bool) → List Nat → List Nat × List Nat)
    (key : Nat → String × Sh) (hc : ConformsToPartition part) (l : List Nat) :
    ((groupByKey part key l).flatten).Perm l :=
  groupByKeyGo_flatten_perm part key hc l.length l (le_refl _)

/-- Helper: the first element a `dropWhile` keeps fails the scan predicate. -/
theorem dropWhile_head_false (q : Nat → Bool) :
    ∀ (l : List Nat) (y : Nat) (t : List Nat), l.dropWhile q = y :: t → q y = false := by
  intro l
  induction l with
  | nil => intro y t h; simp [List.dropWhile] at h
  | cons a l ih =>
    intro y t h
    rw [List.dropWhile_cons] at h
    by_cases hqa : q a = true
    · rw [if_pos hqa] at h
      exact ih y t h
    · rw [if_neg hqa] at h
      injection h with h1 _
      subst h1
      revert hqa
      cases q a <;> simp

/-- Helper: the two-pointer `std::partition` scheme satisfies the partition
contract — each returned side is a permutation of the corresponding filtered
elements (though not in their original order). -/
theorem bidirPartGo_perm (p : Nat → Bool) :
    ∀ (fuel : Nat) (l : List Nat), l.length ≤ fuel →
    ((bidirPartGo p fuel l).1.Perm (l.filter p) ∧
     (bidirPartGo p fuel l).2.Perm (l.filter (fun x => ! p x))) := by
  intro fuel
  induction fuel with
  | zero =>
    intro l hl
    rw [Nat.le_zero, List.length_eq_zero] at hl
    subst hl
    exact ⟨List.Perm.refl _, List.Perm.refl _⟩
  | succ fuel ih =>
    intro l hl
    cases l with
    | nil => exact ⟨List.Perm.refl _, List.Perm.refl _⟩
    | cons x xs =>
      by_cases hpx : p x = true
      · have hunf : bidirPartGo p (fuel + 1) (x :: xs) =
            (x :: (bidirPartGo p fuel xs).1, (bidirPartGo p fuel xs).2) := by
          rw [bidirPartGo, if_pos hpx]
        obtain ⟨i1, i2⟩ := ih xs (by simp only [List.length_cons] at hl; omega)
        rw [hunf]
        constructor
        · rw [List.filter_cons_of_pos hpx]
          exact List.Perm.cons x i1
        · rw [List.filter_cons_of_neg (by simp [hpx])]
          exact i2
      · have hpx' : p x = false := by revert hpx; cases p x <;> simp
        cases hdw : xs.reverse.dropWhile (fun y => ! p y) with
        | nil =>
          have hunf : bidirPartGo p (fuel + 1) (x :: xs) = ([], x :: xs) := by
            rw [bidirPartGo, if_neg (by simp [hpx']), hdw]
          have hall : ∀ y ∈ xs, p y = false := by
            intro y hy
            simpa using List.dropWhile_eq_nil_iff.mp hdw y (List.mem_reverse.mpr hy)
          rw [hunf]
          constructor
          · have hnil : (x :: xs).filter p = [] := by
              rw [List.filter_eq_nil_iff]
              intro a ha
              rcases List.mem_cons.mp ha with rfl | h
              · simp [hpx']
              · simp [hall a h]
            rw [hnil]
          · have hself : (x :: xs).filter (fun z => ! p z) = x :: xs := by
              rw [List.filter_eq_self]
              intro a ha
              rcases List.mem_cons.mp ha with rfl | h
              · simp [hpx']
              · simp [hall a h]
            rw [hself]
        | cons y midRev =>
          have hunf : bidirPartGo p (fuel + 1) (x :: xs) =
              (y :: (bidirPartGo p fuel midRev.reverse).1,
               (bidirPartGo p fuel midRev.reverse).2 ++
                 x :: (xs.reverse.takeWhile (fun y => ! p y)).reverse) := by
            rw [bidirPartGo, if_neg (by simp [hpx']), hdw]
          have hpy : p y = true := by
            simpa using dropWhile_head_false (fun y => ! p y) xs.reverse y midRev hdw
          have htfail : ∀ z ∈ xs.reverse.takeWhile (fun y => ! p y), p z = false := by
            intro z hz
            simpa using List.mem_takeWhile_imp hz
          have hsplit : xs.reverse.takeWhile (fun y => ! p y) ++ y :: midRev = xs.reverse := by
            rw [← hdw]
            exact List.takeWhile_append_dropWhile _ _
          have hlenm : midRev.reverse.length ≤ fuel := by
            have h1 := congrArg List.length hsplit
            simp only [List.length_append, List.length_cons, List.length_reverse] at h1
            simp only [List.length_cons] at hl
            simp only [List.length_reverse]
            omega
          obtain ⟨i1, i2⟩ := ih midRev.reverse hlenm
          have htnilp : (xs.reverse.takeWhile (fun y => ! p y)).filter p = [] := by
            rw [List.filter_eq_nil_iff]
            intro a ha
            simp [htfail a ha]
          have htself : (xs.reverse.takeWhile (fun y => ! p y)).filter (fun z => ! p z) =
              xs.reverse.takeWhile (fun y => ! p y) := by
            rw [List.filter_eq_self]
            intro a ha
            simp [htfail a ha]
          have hrevp : (xs.reverse).filter p = y :: midRev.filter p := by
            rw [← hsplit, List.filter_append, htnilp, List.filter_cons_of_pos hpy,
              List.nil_append]
          have hrevn : (xs.reverse).filter (fun z => ! p z) =
              xs.reverse.takeWhile (fun y => ! p y) ++ midRev.filter (fun z => ! p z) := by
            conv_lhs => rw [← hsplit]
            rw [List.filter_append, htself, List.filter_cons_of_neg (by simp [hpy])]
          have hxsp : (xs.filter p).Perm (y :: midRev.filter p) := by
            rw [← hrevp]
            exact ((List.reverse_perm xs).filter p).symm
          have hxsn : (xs.filter (fun z => ! p z)).Perm
              (xs.reverse.takeWhile (fun y => ! p y) ++ midRev.filter (fun z => ! p z)) := by
            rw [← hrevn]
            exact ((List.reverse_perm xs).filter _).symm
          rw [hunf]
          constructor
          · rw [List.filter_cons_of_neg (by simp [hpx'])]
            refine List.Perm.trans (List.Perm.cons y ?_) hxsp.symm
            exact List.Perm.trans i1 ((List.reverse_perm midRev).filter p)
          · rw [List.filter_cons_of_pos (by simp [hpx'])]
            refine List.Perm.trans ?_ (List.Perm.cons x hxsn.symm)
            refine List.Perm.trans (List.Perm.append_right _ i2) ?_
            refine List.Perm.trans List.perm_middle ?_
            refine List.Perm.cons x ?_
            refine List.Perm.trans (List.Perm.append
              ((List.reverse_perm midRev).filter _) (List.reverse_perm _)) ?_
            exact List.perm_append_comm

/-- Helper: the two-pointer partitioning routine conforms to the
`std::partition` contract. -/
theorem bidirPart_conforms : ConformsToPartition bidirPart :=
  fun p l => bidirPartGo_perm p l.length l (le_refl _)

/-- Helper: `get_reduce` stays inside the live instructions. -/
theorem getReduce_mem_order : ∀ (n : Nat) (M : GModule) (o v : Nat),
    o ∈ M.order → getReduce M n o = some v → v ∈ M.order := by
  intro n
  induction n with
  | zero => intro M o v _ h; simp [getReduce] at h
  | succ n ih =>
    intro M o v ho h
    rw [getReduce] at h
    by_cases hex : (M.instAt o).op.name = "gpu::parallel_reduce" ∨
        (M.instAt o).op.name = "reduce_mean"
    · rw [if_pos hex] at h; exact absurd h (by simp)
    · rw [if_neg hex] at h
      by_cases hred : strContains "reduce" (M.instAt o).op.name = true
      · rw [if_pos hred] at h
        exact (Option.some.inj h) ▸ ho
      · rw [if_neg hred] at h
        by_cases hpw : (M.instAt o).op.name = "pointwise" ∧
            (M.instAt o).inputs.length = 1 ∧ (outputsOf M o).length = 1
        · rw [if_pos hpw] at h
          obtain ⟨j, hj⟩ := List.length_eq_one.mp hpw.2.2
          rw [hj] at h
          simp only [List.headD_cons] at h
          have hjm : j ∈ M.order := by
            have : j ∈ outputsOf M o := by rw [hj]; simp
            exact List.mem_of_mem_filter this
          exact ih M j v hjm h
        · rw [if_neg hpw] at h; exact absurd h (by simp)

/-- Helper: what `get_reduce` returns is a counted reduction (name contains
`"reduce"`, not `gpu::parallel_reduce`, not `reduce_mean`). -/
theorem getReduce_counted : ∀ (n : Nat) (M : GModule) (o v : Nat),
    getReduce M n o = some v → isCountedReduce M v := by
  intro n
  induction n with
  | zero => intro M o v h; simp [getReduce] at h
  | succ n ih =>
    intro M o v h
    rw [getReduce] at h
    by_cases hex : (M.instAt o).op.name = "gpu::parallel_reduce" ∨
        (M.instAt o).op.name = "reduce_mean"
    · rw [if_pos hex] at h; exact absurd h (by simp)
    · rw [if_neg hex] at h
      by_cases hred : strContains "reduce" (M.instAt o).op.name = true
      · rw [if_pos hred] at h
        exact (Option.some.inj h) ▸ ⟨hex, hred⟩
      · rw [if_neg hred] at h
        by_cases hpw : (M.instAt o).op.name = "pointwise" ∧
            (M.instAt o).inputs.length = 1 ∧ (outputsOf M o).length = 1
        · rw [if_pos hpw] at h
          exact ih M _ v h
        · rw [if_neg hpw] at h; exact absurd h (by simp)

/-- Helper: membership in the collected reductions comes from a `get_reduce`
hit out of a live consumer. -/
theorem collectReduces_getReduce {M : GModule} {fuel i r : Nat}
    (h : r ∈ collectReduces M fuel i) :
    ∃ o ∈ outputsOf M i, getReduce M fuel o = some r := by
  obtain ⟨o, ho, hf⟩ := List.mem_filterMap.mp h
  by_cases he : (outputsOf M o).isEmpty
  · rw [if_pos he] at hf; exact absurd hf (by simp)
  · rw [if_neg he] at hf
    exact ⟨o, ho, hf⟩

/-- Helper: collected reductions are live. -/
theorem collectReduces_mem_order {M : GModule} {fuel i r : Nat}
    (h : r ∈ collectReduces M fuel i) : r ∈ M.order := by
  obtain ⟨o, ho, hg⟩ := collectReduces_getReduce h
  exact getReduce_mem_order fuel M o r (List.mem_of_mem_filter ho) hg

/-- Helper: collected reductions are counted reductions. -/
theorem collectReduces_counted {M : GModule} {fuel i r : Nat}
    (h : r ∈ collectReduces M fuel i) : isCountedReduce M r := by
  obtain ⟨o, _, hg⟩ := collectReduces_getReduce h
  exact getReduce_counted fuel M o r hg

/-- Helper (C6 step): applying one group of size at least two.  Relative to a
reference module `M0` that still describes the group members and their first
inputs, `applyGroup` appends exactly one fused `gpu::parallel_reduce`
instruction (its id is the old arena size) whose inputs are the members' first
inputs and whose tuple shape holds, slot per member, the shape the group's
(first member's) operator computes on that member's input; it replaces every
member in place by `get_tuple_elem` of its slot index reading the fused
instruction; it keeps every other instruction and (up to permutation, from the
moves) the live set; and it raises the live `gpu::parallel_reduce` count by
exactly one. -/
theorem applyGroup_facts (sem : String → Nat → Sh → Nat) (i : Nat) (m M0 : GModule)
    (g : List Nat)
    (hglen : ¬ g.length < 2)
    (hgnd : g.Nodup)
    (hA : ∀ r ∈ g, m.instAt r = M0.instAt r)
    (hB : ∀ r ∈ g, m.instAt ((M0.instAt r).inputs.headD 0) =
      M0.instAt ((M0.instAt r).inputs.headD 0))
    (hD : ∀ r ∈ g, (M0.instAt r).inputs.headD 0 ∈ m.order)
    (hC : ∀ r ∈ g, r < M0.arena.length)
    (hlen0 : M0.arena.length ≤ m.arena.length)
    (hf : ∀ j ∈ m.order, j < m.arena.length)
    (hcnt : ∀ r ∈ g, isCountedReduce M0 r) :
    ((applyGroup sem i m g).arena.length = m.arena.length + 1 ∧
     m.arena.length ∈ (applyGroup sem i m g).order ∧
     (∀ j ∈ m.order, j ∈ (applyGroup sem i m g).order) ∧
     (∀ j ∈ (applyGroup sem i m g).order, j < (applyGroup sem i m g).arena.length)) ∧
    ((applyGroup sem i m g).instAt m.arena.length =
      ⟨.parallelReduce (M0.instAt (g.headD 0)).op,
       g.map (fun r => (M0.instAt r).inputs.headD 0),
       .tup ((g.map (fun r => (M0.instAt r).inputs.headD 0)).map
         (fun j => semApply sem (M0.instAt (g.headD 0)).op (M0.instAt j).shp))⟩ ∧
     (∀ k, (hk : k < g.length) → (applyGroup sem i m g).instAt (g.get ⟨k, hk⟩) =
       ⟨.getTupleElem k, [m.arena.length],
        .ord (((g.map (fun r => (M0.instAt r).inputs.headD 0)).map
          (fun j => semApply sem (M0.instAt (g.headD 0)).op (M0.instAt j).shp)).getD k 0)⟩) ∧
     (∀ j, j < m.arena.length → j ∉ g → (applyGroup sem i m g).instAt j = m.instAt j)) ∧
    ((applyGroup sem i m g).order.countP
        (fun j => ((applyGroup sem i m g).instAt j).op.name = "gpu::parallel_reduce") =
      m.order.countP (fun j => (m.instAt j).op.name = "gpu::parallel_reduce") + 1) := by
  have hgne : g ≠ [] := by intro h; rw [h] at hglen; simp at hglen
  have hghead : g.headD 0 ∈ g := by
    cases g with
    | nil => exact absurd rfl hgne
    | cons a t => simp
  have hINdef : g.map (fun r => (m.instAt r).inputs.headD 0) =
      g.map (fun r => (M0.instAt r).inputs.headD 0) :=
    List.map_congr_left (fun r hr => by rw [hA r hr])
  have hopdef : (m.instAt (g.headD 0)).op = (M0.instAt (g.headD 0)).op := by
    rw [hA _ hghead]
  rw [applyGroup, if_neg hglen]
  simp only [hINdef, hopdef]
  set IN := List.map (fun r => (M0.instAt r).inputs.headD 0) g with hIN
  set OP := (M0.instAt (g.headD 0)).op with hOP
  set anc := idAfter m i with hanc
  have hBIN : ∀ j ∈ IN, m.instAt j = M0.instAt j := by
    intro j hj
    obtain ⟨r, hr, rfl⟩ := List.mem_map.mp hj
    exact hB r hr
  have hDIN : ∀ j ∈ IN, j ∈ m.order := by
    intro j hj
    obtain ⟨r, hr, rfl⟩ := List.mem_map.mp hj
    exact hD r hr
  obtain ⟨harena, hord⟩ := movesFold_facts i anc IN m (fun x hx => Or.inr (hDIN x hx))
  set Mv := List.foldl (fun mm inp => if inp = i then mm else moveIns mm inp anc) m IN with hMv
  have hinstv : ∀ j, Mv.instAt j = m.instAt j := by
    intro j
    show Mv.arena.getD j default = m.arena.getD j default
    rw [harena]
  have hpidlen : Mv.arena.length = m.arena.length := by rw [harena]
  rw [hpidlen]
  have hslots : List.map (fun j => semApply sem OP (Mv.instAt j).shp) IN =
      List.map (fun j => semApply sem OP (M0.instAt j).shp) IN :=
    List.map_congr_left (fun j hj => by rw [hinstv j, hBIN j hj])
  rw [hslots, harena]
  set SL := List.map (fun j => semApply sem OP (M0.instAt j).shp) IN with hSL
  set PI : Inst := ⟨.parallelReduce OP, IN, .tup SL⟩ with hPI
  set M2 : GModule :=
    ({ arena := m.arena ++ [PI], order := insertBeforeAnchor Mv.order anc m.arena.length } :
      GModule) with hM2
  have hM2len : M2.arena.length = m.arena.length + 1 := by
    rw [hM2]
    simp
  have hM2pid : M2.instAt m.arena.length = PI := getD_append_len
  have hM2j : ∀ j, j < m.arena.length → M2.instAt j = m.instAt j := fun j hj =>
    getD_append_lt hj
  have hM2ord : M2.order.Perm (m.arena.length :: m.order) :=
    (insertAnchor_perm _ _ _).trans (List.Perm.cons _ hord)
  have hpidg : m.arena.length ∉ g := by
    intro hmem
    have := hC _ hmem
    omega
  have henum : g.enum = List.enumFrom 0 g := rfl
  rw [henum]
  obtain ⟨hRo, hRl, hRmem, hRstay⟩ := replaceFold_facts m.arena.length PI g 0 M2 hgnd
    (fun r hr => ⟨by have := hC r hr; omega, by have := hC r hr; omega⟩) hM2pid
  have hlen3 : (List.foldl (replaceStep m.arena.length) M2 (List.enumFrom 0 g)).arena.length =
      m.arena.length + 1 := by rw [hRl, hM2len]
  refine ⟨⟨hlen3, ?_, ?_, ?_⟩, ⟨?_, ?_, ?_⟩, ?_⟩
  · rw [hRo]
    exact hM2ord.mem_iff.mpr (List.mem_cons_self _ _)
  · intro j hj
    rw [hRo]
    exact hM2ord.mem_iff.mpr (List.mem_cons_of_mem _ hj)
  · intro j hj
    rw [hRo] at hj
    rw [hlen3]
    rcases List.mem_cons.mp (hM2ord.mem_iff.mp hj) with rfl | hj'
    · omega
    · have := hf j hj'
      omega
  · rw [hRstay _ hpidg, hM2pid]
  · intro k hk
    have hh := hRmem k hk
    simp only [Nat.zero_add] at hh
    rw [hh]
    rfl
  · intro j hj hjg
    rw [hRstay j hjg, hM2j j hj]
  · rw [hRo]
    have hc1 : M2.order.countP (fun j =>
        (((List.enumFrom 0 g).foldl (replaceStep m.arena.length) M2).instAt j).op.name =
          "gpu::parallel_reduce") =
        M2.order.countP (fun j => (M2.instAt j).op.name = "gpu::parallel_reduce") := by
      refine List.countP_congr ?_
      intro j hj
      simp only [decide_eq_true_eq]
      rcases List.mem_cons.mp (hM2ord.mem_iff.mp hj) with rfl | hj'
      · rw [hRstay _ hpidg]
      · by_cases hjg : j ∈ g
        · obtain ⟨⟨k, hk⟩, rfl⟩ := List.mem_iff_get.mp hjg
          have h3 := hRmem k hk
          simp only [Nat.zero_add] at h3
          rw [h3, hM2j _ (hf _ hj'), hA _ hjg]
          have hne2 : (M0.instAt (g.get ⟨k, hk⟩)).op.name ≠ "gpu::parallel_reduce" :=
            fun hcon => (hcnt _ hjg).1 (Or.inl hcon)
          constructor
          · intro hcon
            have hcon2 : ("get_tuple_elem" : String) = "gpu::parallel_reduce" := hcon
            exact absurd hcon2 (by decide)
          · intro hcon; exact absurd hcon hne2
        · rw [hRstay j hjg]
    rw [hc1, hM2ord.countP_eq _, List.countP_cons]
    have hpidtrue : (decide ((M2.instAt m.arena.length).op.name = "gpu::parallel_reduce")) =
        true := by
      rw [hM2pid]
      rfl
    have hc3 : m.order.countP (fun j => (M2.instAt j).op.name = "gpu::parallel_reduce") =
        m.order.countP (fun j => (m.instAt j).op.name = "gpu::parallel_reduce") := by
      refine List.countP_congr ?_
      intro j hj
      rw [hM2j j (hf j hj)]
    rw [hc3] at *
    simp only [hpidtrue, if_true]

/-- Helper: a group smaller than two is untouched. -/
theorem applyGroup_small (sem : String → Nat → Sh → Nat) (i : Nat) (m : GModule)
    {g : List Nat} (h : g.length < 2) : applyGroup sem i m g = m := by
  rw [applyGroup, if_pos h]

/-- Helper (C6 fold): folding `applyGroup` over a disjoint family of groups
whose members (and their first inputs) are still as in the reference module
`M0`.  Every group of size at least two gets exactly one fresh fused
instruction with the specified definition, and its members are replaced by
`get_tuple_elem`s; live instructions survive; untouched instructions keep their
definitions; the live `gpu::parallel_reduce` count grows by the number of big
groups. -/
theorem multiReduceFold_facts (sem : String → Nat → Sh → Nat) (M0 : GModule) (i : Nat)
    (reduces0 : List Nat)
    (hr_ord : ∀ r ∈ reduces0, r ∈ M0.order)
    (hr_cnt : ∀ r ∈ reduces0, isCountedReduce M0 r)
    (hr_h0 : ∀ r ∈ reduces0, (M0.instAt r).inputs.headD 0 ∉ reduces0)
    (hwf0 : ∀ j ∈ M0.order, j < M0.arena.length) :
    ∀ (gs : List (List Nat)) (m : GModule),
    (∀ x ∈ gs.flatten, x ∈ reduces0) →
    gs.flatten.Nodup →
    (∀ j ∈ m.order, j < m.arena.length) →
    M0.arena.length ≤ m.arena.length →
    (∀ x ∈ gs.flatten, m.instAt x = M0.instAt x) →
    (∀ r ∈ gs.flatten, m.instAt ((M0.instAt r).inputs.headD 0) =
      M0.instAt ((M0.instAt r).inputs.headD 0)) →
    (∀ r ∈ gs.flatten, (M0.instAt r).inputs.headD 0 ∈ m.order) →
    ((∀ g ∈ gs, 2 ≤ g.length → ∃ p, M0.arena.length ≤ p ∧
        p ∈ (List.foldl (applyGroup sem i) m gs).order ∧
        (List.foldl (applyGroup sem i) m gs).instAt p =
          ⟨.parallelReduce (M0.instAt (g.headD 0)).op,
           g.map (fun r => (M0.instAt r).inputs.headD 0),
           .tup ((g.map (fun r => (M0.instAt r).inputs.headD 0)).map
             (fun j => semApply sem (M0.instAt (g.headD 0)).op (M0.instAt j).shp))⟩ ∧
        (∀ k, (hk : k < g.length) →
          (List.foldl (applyGroup sem i) m gs).instAt (g.get ⟨k, hk⟩) =
            ⟨.getTupleElem k, [p],
             .ord (((g.map (fun r => (M0.instAt r).inputs.headD 0)).map
               (fun j => semApply sem (M0.instAt (g.headD 0)).op
                 (M0.instAt j).shp)).getD k 0)⟩)) ∧
     (∀ j ∈ m.order, j ∈ (List.foldl (applyGroup sem i) m gs).order) ∧
     (∀ j, j < m.arena.length → j ∉ gs.flatten →
       (List.foldl (applyGroup sem i) m gs).instAt j = m.instAt j) ∧
     m.arena.length ≤ (List.foldl (applyGroup sem i) m gs).arena.length ∧
     ((List.foldl (applyGroup sem i) m gs).order.countP (fun j =>
        ((List.foldl (applyGroup sem i) m gs).instAt j).op.name = "gpu::parallel_reduce") =
      m.order.countP (fun j => (m.instAt j).op.name = "gpu::parallel_reduce") +
        (gs.filter (fun g => 2 ≤ g.length)).length)) := by
  intro gs
  induction gs with
  | nil =>
    intro m _ _ _ _ _ _ _
    exact ⟨by intro g hg; simp at hg, fun j hj => hj, fun j _ _ => rfl, le_refl _, by simp⟩
  | cons g gs' ih =>
    intro m hsub hnd hfm hlen0 hAa hBb hDd
    have hflat : (g :: gs').flatten = g ++ gs'.flatten := rfl
    rw [hflat] at hsub hnd hAa hBb hDd
    obtain ⟨hgnd, hnd', hdisj⟩ := List.nodup_append.mp hnd
    have hsubg : ∀ x ∈ g, x ∈ reduces0 := fun x hx => hsub x (by simp [hx])
    have hsub' : ∀ x ∈ gs'.flatten, x ∈ reduces0 := fun x hx => hsub x (by simp [hx])
    have hCm : ∀ r ∈ g, r < M0.arena.length := fun r hr => hwf0 r (hr_ord r (hsubg r hr))
    have hC' : ∀ r ∈ gs'.flatten, r < M0.arena.length :=
      fun r hr => hwf0 r (hr_ord r (hsub' r hr))
    have hfold : List.foldl (applyGroup sem i) m (g :: gs') =
        List.foldl (applyGroup sem i) (applyGroup sem i m g) gs' := rfl
    rw [hfold]
    by_cases hglen : g.length < 2
    · rw [applyGroup_small sem i m hglen]
      obtain ⟨k1, k2, k3, k4, k5⟩ := ih m hsub' hnd' hfm hlen0
        (fun x hx => hAa x (by simp [hx])) (fun r hr => hBb r (by simp [hr]))
        (fun r hr => hDd r (by simp [hr]))
      refine ⟨?_, k2, ?_, k4, ?_⟩
      · intro g0 hg0 hbig
        rcases List.mem_cons.mp hg0 with rfl | hg0'
        · omega
        · exact k1 g0 hg0' hbig
      · intro j hj hjn
        exact k3 j hj (fun hm => hjn (by simp [hm]))
      · rw [k5, List.filter_cons_of_neg (by simpa using hglen)]
    · obtain ⟨⟨a1, a2, a3, a4⟩, ⟨b1, b2, b3⟩, d1⟩ := applyGroup_facts sem i m M0 g hglen hgnd
        (fun r hr => hAa r (by simp [hr]))
        (fun r hr => hBb r (by simp [hr]))
        (fun r hr => hDd r (by simp [hr]))
        hCm hlen0 hfm (fun r hr => hr_cnt r (hsubg r hr))
      obtain ⟨k1, k2, k3, k4, k5⟩ := ih (applyGroup sem i m g) hsub' hnd' a4
        (by omega)
        (fun x hx => by
          rw [b3 x (by have := hC' x hx; omega) (fun hm => hdisj hm hx)]
          exact hAa x (by simp [hx]))
        (fun r hr => by
          have hh0 : (M0.instAt r).inputs.headD 0 ∈ m.order := hDd r (by simp [hr])
          rw [b3 _ (hfm _ hh0) (fun hm => hr_h0 r (hsub' r hr) (hsubg _ hm))]
          exact hBb r (by simp [hr]))
        (fun r hr => a3 _ (hDd r (by simp [hr])))
      refine ⟨?_, ?_, ?_, by omega, ?_⟩
      · intro g0 hg0 hbig
        rcases List.mem_cons.mp hg0 with rfl | hg0'
        · refine ⟨m.arena.length, hlen0, k2 _ a2, ?_, ?_⟩
          · rw [k3 _ (by omega) (fun hm => by have := hC' _ hm; omega), b1]
          · intro k hk
            have hmem : g0.get ⟨k, hk⟩ ∈ g0 := List.get_mem g0 k hk
            rw [k3 _ (by have := hCm _ hmem; omega)
              (fun hm => hdisj hmem hm), b2 k hk]
        · exact k1 g0 hg0' hbig
      · intro j hj
        exact k2 j (a3 j hj)
      · intro j hj hjn
        rw [k3 j (by omega) (fun hm => hjn (by simp [hm])),
          b3 j hj (fun hm => hjn (by simp [hm]))]
      · rw [k5, d1, List.filter_cons_of_pos (by simpa using hglen)]
        simp only [List.length_cons]
        omega

/-- **C6** (amended): `find_multi_reduce::apply` on a match.  The reachable
reductions are grouped by the key `(operator name, output shape)` by
`migraphx::group_by`, whose repeated `std::partition` calls are constrained
only by the partition contract — each produced group is a permutation of the
equal-key reductions, in implementation-defined (not necessarily encounter)
order.  For every produced group of size at least two the pass inserts exactly
one fused `gpu::parallel_reduce` instruction — fresh (its id is at least the
old arena size), live, taking the group members' first inputs, with a tuple
output shape holding one slot per member in the produced group order, slot `k`
being the shape the group's (first produced member's) operator computes on
member `k`'s input — and replaces each original reduction in place by a
`get_tuple_elem` carrying its slot index in the produced order and reading the
fused instruction (its consumers therefore see the extraction); all other
instructions keep their definitions, live instructions stay live, and the
number of live fused instructions grows by exactly the number of produced
groups of size at least two.  Proven for every partitioning routine conforming
to the `std::partition` contract. -/
theorem find_multi_reduce_apply_rewrites
    (part : (Nat → Bool) → List Nat → List Nat × List Nat)
    (sem : String → Nat → Sh → Nat) (fuel : Nat)
    (M : GModule) (i : Nat)
    (hpart : ConformsToPartition part)
    (hwf : ∀ j ∈ M.order, j < M.arena.length)
    (hlive : ∀ j ∈ M.order, ∀ x ∈ (M.instAt j).inputs, x ∈ M.order)
    (hrnd : (collectReduces M fuel i).Nodup)
    (hne : ∀ r ∈ collectReduces M fuel i, (M.instAt r).inputs ≠ [])
    (hinr : ∀ r ∈ collectReduces M fuel i,
      (M.instAt r).inputs.headD 0 ∉ collectReduces M fuel i) :
    (∀ g ∈ groupByKey part (instKey M) (collectReduces M fuel i), 2 ≤ g.length → ∃ p,
      M.arena.length ≤ p ∧ p ∈ (applyMultiReduce part sem fuel M i).order ∧
      (applyMultiReduce part sem fuel M i).instAt p =
        ⟨.parallelReduce (M.instAt (g.headD 0)).op,
         g.map (fun r => (M.instAt r).inputs.headD 0),
         .tup ((g.map (fun r => (M.instAt r).inputs.headD 0)).map
           (fun j => semApply sem (M.instAt (g.headD 0)).op (M.instAt j).shp))⟩ ∧
      (∀ k, (hk : k < g.length) →
        (applyMultiReduce part sem fuel M i).instAt (g.get ⟨k, hk⟩) =
          ⟨.getTupleElem k, [p],
           .ord (((g.map (fun r => (M.instAt r).inputs.headD 0)).map
             (fun j => semApply sem (M.instAt (g.headD 0)).op (M.instAt j).shp)).getD k 0)⟩)) ∧
    (∀ j ∈ M.order, j ∈ (applyMultiReduce part sem fuel M i).order) ∧
    (∀ j, j < M.arena.length → j ∉ collectReduces M fuel i →
      (applyMultiReduce part sem fuel M i).instAt j = M.instAt j) ∧
    ((applyMultiReduce part sem fuel M i).order.countP (fun j =>
        ((applyMultiReduce part sem fuel M i).instAt j).op.name = "gpu::parallel_reduce") =
      M.order.countP (fun j => (M.instAt j).op.name = "gpu::parallel_reduce") +
        ((groupByKey part (instKey M) (collectReduces M fuel i)).filter
          (fun g => 2 ≤ g.length)).length) := by
  have happly : applyMultiReduce part sem fuel M i =
      List.foldl (applyGroup sem i) M
        (groupByKey part (instKey M) (collectReduces M fuel i)) := rfl
  have hperm := groupByKey_flatten_perm part (instKey M) hpart (collectReduces M fuel i)
  have hmemflat : ∀ x, x ∈ (groupByKey part (instKey M) (collectReduces M fuel i)).flatten ↔
      x ∈ collectReduces M fuel i := fun x => hperm.mem_iff
  have hr_ord : ∀ r ∈ collectReduces M fuel i, r ∈ M.order :=
    fun r hr => collectReduces_mem_order hr
  have hr_h0mem : ∀ r ∈ collectReduces M fuel i, (M.instAt r).inputs.headD 0 ∈ M.order := by
    intro r hr
    have hmem : (M.instAt r).inputs.headD 0 ∈ (M.instAt r).inputs := by
      cases hI : (M.instAt r).inputs with
      | nil => exact absurd hI (hne r hr)
      | cons a t => simp
    exact hlive r (hr_ord r hr) _ hmem
  obtain ⟨k1, k2, k3, _, k5⟩ := multiReduceFold_facts sem M i (collectReduces M fuel i)
    hr_ord (fun r hr => collectReduces_counted hr) hinr hwf
    (groupByKey part (instKey M) (collectReduces M fuel i)) M
    (fun x hx => (hmemflat x).mp hx)
    (hperm.nodup_iff.mpr hrnd)
    hwf (le_refl _)
    (fun x _ => rfl) (fun r _ => rfl)
    (fun r hr => hr_h0mem r ((hmemflat r).mp hr))
  rw [happly]
  exact ⟨k1, k2, fun j hj hjn => k3 j hj (fun hm => hjn ((hmemflat j).mp hm)), k5⟩

/-- **C6** (witness for the amended theorem): one matched ancestor with two
same-key `reduce_sum` consumers (each with a downstream consumer), the pass
instantiated at the order-keeping conforming partitioning routine; the fused
instruction and the two tuple extractions appear as stated. -/
theorem find_multi_reduce_apply_rewrites_witness :
    (let M : GModule :=
      { arena := [⟨.base "x" 0, [], .ord 0⟩,
                  ⟨.base "reduce_sum" 0, [0], .ord 5⟩,
                  ⟨.base "reduce_sum" 0, [0], .ord 5⟩,
                  ⟨.base "f" 0, [1], .ord 6⟩,
                  ⟨.base "f" 0, [2], .ord 6⟩],
        order := [0, 1, 2, 3, 4] }
     let sem : String → Nat → Sh → Nat := fun _ _ _ => 5
     ConformsToPartition stablePart ∧
     (∀ j ∈ M.order, j < M.arena.length) ∧
     (collectReduces M 5 0).Nodup ∧
     (∀ j ∈ M.order, j ∈ (applyMultiReduce stablePart sem 5 M 0).order) ∧
     (∀ j, j < M.arena.length → j ∉ collectReduces M 5 0 →
       (applyMultiReduce stablePart sem 5 M 0).instAt j = M.instAt j)) := by
  refine ⟨fun p l => ⟨List.Perm.refl _, List.Perm.refl _⟩, by decide, by decide, ?_, ?_⟩
  · exact (find_multi_reduce_apply_rewrites stablePart _ 5 _ 0
      (fun p l => ⟨List.Perm.refl _, List.Perm.refl _⟩) (by decide) (by decide) (by decide)
      (by decide) (by decide)).2.1
  · exact (find_multi_reduce_apply_rewrites stablePart _ 5 _ 0
      (fun p l => ⟨List.Perm.refl _, List.Perm.refl _⟩) (by decide) (by decide) (by decide)
      (by decide) (by decide)).2.2.1

set_option maxRecDepth 8000 in
/-- **C6** (counterexample): the grouping is not the stable, encounter-order
partitioning the claim asserts.  `migraphx::group_by` calls `std::partition`,
whose contract fixes only the partition, never the relative order; under the
classic two-pointer scheme `bidirPart` — a conforming implementation, see the
first conjunct — the five reductions collected in encounter order
`[1, 2, 3, 4, 5]` with keys `A B B A A` come out grouped `[[1, 5, 4], [3, 2]]`
instead of the stable `[[1, 4, 5], [2, 3]]`, so the encounter-second `A`
reduction (id 4) is replaced by `get_tuple_elem` of slot 2, not slot 1, and
the rewritten module differs from the stably grouped one. -/
theorem multi_reduce_grouping_unstable :
    ConformsToPartition bidirPart ∧
    (let M : GModule :=
      { arena := [⟨.base "x" 0, [], .ord 0⟩,
                  ⟨.base "reduce_sum" 0, [0], .ord 5⟩,
                  ⟨.base "reduce_sum" 0, [0], .ord 7⟩,
                  ⟨.base "reduce_sum" 0, [0], .ord 7⟩,
                  ⟨.base "reduce_sum" 0, [0], .ord 5⟩,
                  ⟨.base "reduce_sum" 0, [0], .ord 5⟩,
                  ⟨.base "f" 0, [1], .ord 6⟩,
                  ⟨.base "f" 0, [2], .ord 6⟩,
                  ⟨.base "f" 0, [3], .ord 6⟩,
                  ⟨.base "f" 0, [4], .ord 6⟩,
                  ⟨.base "f" 0, [5], .ord 6⟩],
        order := [0, 1, 2, 3, 4, 5, 6, 7, 8, 9, 10] }
     let sem : String → Nat → Sh → Nat := fun _ _ _ => 9
     collectReduces M 11 0 = [1, 2, 3, 4, 5] ∧
     groupByKey bidirPart (instKey M) [1, 2, 3, 4, 5] = [[1, 5, 4], [3, 2]] ∧
     groupByKey stablePart (instKey M) [1, 2, 3, 4, 5] = [[1, 4, 5], [2, 3]] ∧
     ((applyMultiReduce bidirPart sem 11 M 0).instAt 4).op = .getTupleElem 2 ∧
     ((applyMultiReduce bidirPart sem 11 M 0).instAt 5).op = .getTupleElem 1 ∧
     ((applyMultiReduce stablePart sem 11 M 0).instAt 4).op = .getTupleElem 1 ∧
     applyMultiReduce bidirPart sem 11 M 0 ≠ applyMultiReduce stablePart sem 11 M 0) :=
  ⟨bidirPart_conforms, by decide⟩
